import Mathlib

/-!
Verification of the fast-watershed core against its specification.

The Python sources are shallowly embedded: numpy windows become total
functions `ℤ → ℤ → ℤ` together with explicit shape parameters, the
numba `while` loops become fuel-indexed recursions returning `Option`
(`none` = the loop did not finish within the given fuel), and the
world-coordinate arithmetic of `raster.py` is carried out exactly over `ℚ`.
-/

namespace FastWS

/-! ## D8 direction model (`src/fastws/aot.py`)

`find_stream_task` indexes a 9-entry offset list by the D8 code; entry 0 is
a placeholder because codes are only looked up after checking `fd[i,j] > 0`.
-/

/-- The `directions` list of `find_stream_task`: index `k` holds the
`(Δrow, Δcol)` offset of the downstream neighbor for D8 code `k`. -/
def directions : List (ℤ × ℤ) :=
  [(0, 0), (-1, 1), (-1, 0), (-1, -1), (0, -1), (1, -1), (1, 0), (1, 1), (0, 1)]

/-- `directions[code]` (codes are looked up only when `0 < code ≤ 8`). -/
def offsetOf (code : ℤ) : ℤ × ℤ := directions.getD code.toNat (0, 0)

/-- The `directions` 3×3 nested list of `delineate_task`
(`[[7, 6, 5], [8, 0, 4], [1, 2, 3]]`), indexed as
`directions[row_offset + 1][col_offset + 1]`. -/
def kernelDirections : List (List ℤ) := [[7, 6, 5], [8, 0, 4], [1, 2, 3]]

/-- `directions[dr + 1][dc + 1]` of `delineate_task`: the D8 code a neighbor
at offset `(dr, dc)` must carry to contribute to the center cell. -/
def dirAt (dr dc : ℤ) : ℤ := (kernelDirections.getD (dr + 1).toNat []).getD (dc + 1).toNat 0

/-- The `nbrs` list of `delineate_task`, in source order. -/
def nbrs : List (ℤ × ℤ) :=
  [(-1, -1), (-1, 0), (-1, 1), (0, -1), (0, 1), (1, -1), (1, 0), (1, 1)]

/-- The 3×3 inverse table exactly as printed in §3 of the spec:
`[[3, 2, 1], [4, 0, 8], [5, 6, 7]]`.  Written from the spec's words, to be
compared with `kernelDirections`, the table the code actually uses. -/
def specInverse : List (List ℤ) := [[3, 2, 1], [4, 0, 8], [5, 6, 7]]

/-- Lookup `specInverse[dr + 1][dc + 1]` (spec §3 wording). -/
def specInverseAt (dr dc : ℤ) : ℤ := (specInverse.getD (dr + 1).toNat []).getD (dc + 1).toNat 0

/-! ## Downstream tracer `find_stream_task` (`src/fastws/aot.py`, lines 8-41)

`stream` and `fd` are the two window arrays (local indices), `H`/`W` the
window shape (`fd.shape`).  The `while True` loop is given fuel; `none`
means the fuel ran out before the loop broke. -/

/-- `find_stream_task(stream, fd, i, j)`: walk the D8 chain from `(i, j)`
until a stream cell is hit (`(true, i, j)`), a cell with `fd ≤ 0` is hit
(`(false, i, j)`), or the walk steps outside the window
(`(false, i, j)` with the out-of-range index). -/
def find_stream_task (stream : ℤ → ℤ → Bool) (fd : ℤ → ℤ → ℤ) (H W : ℤ) :
    ℕ → ℤ → ℤ → Option (Bool × ℤ × ℤ)
  | 0, _, _ => none
  | fuel + 1, i, j =>
    if stream i j then some (true, i, j)
    else if fd i j ≤ 0 then some (false, i, j)
    else
      let o := offsetOf (fd i j)
      let i' := i + o.1
      let j' := j + o.2
      if i' < 0 ∨ i' ≥ H ∨ j' < 0 ∨ j' ≥ W then some (false, i', j')
      else find_stream_task stream fd H W fuel i' j'

/-- `find_stream_task` as worded by spec §4.2: identical checks, with the
bounds test written as membership of `(i', j')` in `[0,H) × [0,W)`.
Written from the spec's words, to be compared with `find_stream_task`. -/
def findStreamTaskSpec (stream : ℤ → ℤ → Bool) (fd : ℤ → ℤ → ℤ) (H W : ℤ) :
    ℕ → ℤ → ℤ → Option (Bool × ℤ × ℤ)
  | 0, _, _ => none
  | fuel + 1, i, j =>
    if stream i j then some (true, i, j)
    else if fd i j ≤ 0 then some (false, i, j)
    else
      let o := offsetOf (fd i j)
      let i' := i + o.1
      let j' := j + o.2
      if 0 ≤ i' ∧ i' < H ∧ 0 ≤ j' ∧ j' < W then findStreamTaskSpec stream fd H W fuel i' j'
      else some (false, i', j')

/-! ## Upstream kernel `delineate_task` (`src/fastws/aot.py`, lines 44-95)

The Python stack list pops from its end; here the head of `stack` is the
top.  Pushing the matching neighbors of one pop in `nbrs` order by
prepending reproduces the Python pop order exactly.  The dummy `[0, 0]`
rows that the source prepends to `basin`/`edges` (and strips with `[1:]`
on return) are left out: the fields below hold the returned lists. -/

/-- Mutable state of the `delineate_task` loop. -/
structure KState where
  stack : List (ℤ × ℤ)
  basin : List (ℤ × ℤ)
  edges : List (ℤ × ℤ)
  edge_directions : List ℤ
deriving DecidableEq, Repr

/-- One pass of the `for row_offset, col_offset in nbrs` body of
`delineate_task` for the popped cell `(i, j)` and offset `o`.  Note the
source bounds test: `t_i < 0 or t_j < 0 or t_i == fd.shape[0] or
t_j == fd.shape[0]` — both overshoot comparisons use `fd.shape[0] = H`. -/
def visitNbr (fd : ℤ → ℤ → ℤ) (H : ℤ) (i j : ℤ) (s : KState) (o : ℤ × ℤ) : KState :=
  let t_i := i + o.1
  let t_j := j + o.2
  if t_i < 0 ∨ t_j < 0 ∨ t_i = H ∨ t_j = H then
    { s with edge_directions := s.edge_directions ++ [dirAt o.1 o.2],
             edges := s.edges ++ [(t_i, t_j)] }
  else if fd t_i t_j ≤ 0 then s
  else if fd t_i t_j = dirAt o.1 o.2 then
    { s with stack := (t_i, t_j) :: s.stack, basin := s.basin ++ [(t_i, t_j)] }
  else s

/-- The `while len(list_stack) > 0` loop of `delineate_task`, fueled. -/
def delineateLoop (fd : ℤ → ℤ → ℤ) (H : ℤ) : ℕ → KState → Option KState
  | 0, _ => none
  | fuel + 1, s =>
    match s.stack with
    | [] => some s
    | (i, j) :: rest =>
      delineateLoop fd H fuel (nbrs.foldl (visitNbr fd H i j) { s with stack := rest })

/-- `delineate_task(fd, stack)`: run the kernel loop from the given seed
stack (given in Python list order, whose end is the top of the stack). -/
def delineate_task (fd : ℤ → ℤ → ℤ) (H : ℤ) (stack : List (ℤ × ℤ)) (fuel : ℕ) :
    Option KState :=
  delineateLoop fd H fuel ⟨stack.reverse, [], [], []⟩

end FastWS

namespace FastWS

/-! ### Concrete kernel inputs used to separate the code from the spec -/

/-- 3×3 flow-direction window whose only nonzero cell is `fd[0,0] = 3`. -/
def fdC1 : ℤ → ℤ → ℤ := fun i j => if i = 0 ∧ j = 0 then 3 else 0

/-- 2×3 flow-direction window that is identically 0. -/
def fdZero : ℤ → ℤ → ℤ := fun _ _ => 0

/-! ## Raster model (`src/src/fastws/raster.py`)

World coordinates are exact rationals.  A raster is its geotransform
scalars, its global shape, the block (tile) layout, the nodata sentinel and
band 1 as a total function on global indices (numpy bounds are not
modelled; all in-contract reads are within bounds). -/

/-- A raster block window (`rasterio.windows.Window`); windows compare by
their four integers. -/
structure Window where
  row_off : ℤ
  col_off : ℤ
  height : ℤ
  width : ℤ
deriving DecidableEq, Repr

/-- Shallow model of an open `Raster`. -/
structure Raster where
  top : ℚ
  left : ℚ
  csx : ℚ
  csy : ℚ
  height : ℤ
  width : ℤ
  blockH : ℤ
  blockW : ℤ
  nodata : ℤ
  data : ℤ → ℤ → ℤ

/-- Number of block rows of the tiled layout, `⌈height / blockH⌉`. -/
def Raster.blockRowCount (r : Raster) : ℕ := ((r.height + r.blockH - 1) / r.blockH).toNat

/-- Number of block columns of the tiled layout, `⌈width / blockW⌉`. -/
def Raster.blockColCount (r : Raster) : ℕ := ((r.width + r.blockW - 1) / r.blockW).toNat

/-- `ds.block_windows()`: the blocks of the tiled layout in row-major
order; border blocks are clipped to the raster shape. -/
def Raster.block_windows (r : Raster) : List Window :=
  (List.range r.blockRowCount).flatMap fun (bi : ℕ) =>
    (List.range r.blockColCount).map fun (bj : ℕ) =>
      { row_off := (bi : ℤ) * r.blockH
        col_off := (bj : ℤ) * r.blockW
        height := min r.blockH (r.height - (bi : ℤ) * r.blockH)
        width := min r.blockW (r.width - (bj : ℤ) * r.blockW) }

/-- Bounding coordinates of a window (`Raster.window_extent`). -/
structure Extent where
  top : ℚ
  bottom : ℚ
  left : ℚ
  right : ℚ
deriving DecidableEq, Repr

/-- `Raster.window_extent(window)`. -/
def Raster.window_extent (r : Raster) (w : Window) : Extent :=
  { top := r.top - w.row_off * r.csy
    bottom := r.top - (w.row_off + w.height) * r.csy
    left := r.left + w.col_off * r.csx
    right := r.left + (w.col_off + w.width) * r.csx }

/-- The local `intersects` predicate of `Raster.intersecting_window`:
inclusive on all four sides. -/
def Raster.intersectsPt (r : Raster) (x y : ℚ) (w : Window) : Bool :=
  let ext := r.window_extent w
  decide (y ≤ ext.top) && decide (ext.bottom ≤ y)
    && decide (ext.left ≤ x) && decide (x ≤ ext.right)

/-- `Raster.intersecting_window(x, y)`: the first block (in
`block_windows()` order) whose inclusive bounds contain the point, with the
point's local indices by floor division from the window's top-left;
`none` models the `IndexError` when no block contains the point. -/
def Raster.intersecting_window (r : Raster) (x y : ℚ) : Option (Window × ℤ × ℤ) :=
  ((r.block_windows).find? (fun w => r.intersectsPt x y w)).map fun w =>
    (w, ⌊((r.window_extent w).top - y) / r.csy⌋, ⌊(x - (r.window_extent w).left) / r.csx⌋)

/-- `Raster.xy_from_window_index(i, j, window)`: cell-center world
coordinate; also meaningful for out-of-window indices. -/
def Raster.xy_from_window_index (r : Raster) (i j : ℤ) (w : Window) : ℚ × ℚ :=
  let ext := r.window_extent w
  (ext.left + j * r.csx + r.csx / 2, ext.top - i * r.csy - r.csy / 2)

/-- Cell `(i, j)` of the decoded array `raster[window]` (local indices). -/
def Raster.readCell (r : Raster) (w : Window) (i j : ℤ) : ℤ :=
  r.data (w.row_off + i) (w.col_off + j)

/-- The boolean window `streams[window] != streams.nodata` of `find_stream`. -/
def Raster.maskWin (r : Raster) (w : Window) : ℤ → ℤ → Bool :=
  fun i j => decide (r.readCell w i j ≠ r.nodata)

/-- The flow-direction window `fd[window]` as a local-index function. -/
def Raster.fdWin (r : Raster) (w : Window) : ℤ → ℤ → ℤ :=
  fun i j => r.readCell w i j

/-! ## Stream snapper `find_stream` (`src/src/fastws/watershed.py`, lines 36-72)

The `xy_srs is None` path is modelled (the claims do not involve
reprojection).  Outcomes: `ok` (snapped coordinate and drainage area),
`badPoint` (the `ValueError` raised when `fd` at the starting cell is
nodata or ≤ 0), `noStreams` (the `ValueError` raised when
`intersecting_window` fails mid-walk), `offRaster` (the uncaught
`IndexError` when the query point itself is off the raster). -/

inductive FindStreamResult where
  | ok (x y area : ℚ)
  | badPoint
  | noStreams
  | offRaster
deriving DecidableEq, Repr

/-- The `while not found` loop of `find_stream`, fueled (`none` = the loop
did not finish within the given fuel). -/
def fsLoop (streams fd fa : Raster) : ℕ → Bool → Window → ℤ → ℤ → Option FindStreamResult
  | 0, _, _, _, _ => none
  | fuel + 1, found, w, i, j =>
    if found then
      some (.ok (fd.xy_from_window_index i j w).1 (fd.xy_from_window_index i j w).2
        |(fa.readCell w i j : ℚ) * fa.csx * fa.csy|)
    else
      match fd.intersecting_window (fd.xy_from_window_index i j w).1
          (fd.xy_from_window_index i j w).2 with
      | none => some .noStreams
      | some (w', i', j') =>
        match find_stream_task (streams.maskWin w') (fd.fdWin w') w'.height w'.width
            (fuel + 1) i' j' with
        | none => none
        | some (f, i'', j'') => fsLoop streams fd fa fuel f w' i'' j''

/-- `find_stream(stream_src, fd_src, fa_src, x, y)`. -/
def find_stream (streams fd fa : Raster) (x y : ℚ) (fuel : ℕ) :
    Option FindStreamResult :=
  match fd.intersecting_window x y with
  | none => some .offRaster
  | some (w, i, j) =>
    if fd.readCell w i j = fd.nodata ∨ fd.readCell w i j ≤ 0 then some .badPoint
    else
      match find_stream_task (streams.maskWin w) (fd.fdWin w) w.height w.width fuel i j with
      | none => none
      | some (f, i', j') => fsLoop streams fd fa fuel f w i' j'

/-! ### Concrete rasters for the snapper claims -/

/-- 1×2 flow-direction raster (single 1×2 block, unit cells, top-left at
the origin): cell `(0,0)` flows right (code 8) into cell `(0,1)`, which has
`fd = 0`.  The D8 graph is acyclic. -/
def fdC4 : Raster :=
  { top := 0, left := 0, csx := 1, csy := 1, height := 1, width := 2
    blockH := 1, blockW := 2, nodata := -9
    data := fun i j => if i = 0 ∧ j = 0 then 8 else 0 }

/-- Stream raster on the same grid: every cell is nodata, so the stream
mask is false everywhere. -/
def streamsC4 : Raster := { fdC4 with nodata := -1, data := fun _ _ => -1 }

/-- Flow-accumulation raster on the same grid. -/
def faC4 : Raster := { fdC4 with data := fun _ _ => 0 }

/-- The single block of the 1×2 raster. -/
def wC4 : Window := ⟨0, 0, 1, 2⟩

/-- The 1×2 raster with `fd = 0` everywhere (bad starting cell). -/
def fdStart0 : Raster := { fdC4 with data := fun _ _ => 0 }

/-- 4×4 raster with 2×2 blocks, unit cells, top-left at the origin. -/
def rC10 : Raster :=
  { top := 0, left := 0, csx := 1, csy := 1, height := 4, width := 4
    blockH := 2, blockW := 2, nodata := -9, data := fun _ _ => 0 }

/-- The top-left 2×2 block of `rC10`. -/
def wC10 : Window := ⟨0, 0, 2, 2⟩

/-! ## Raster lifecycle (`src/src/fastws/raster.py`, lines 130-142)

`Raster.__init__` opens the dataset; `__exit__` is the statement
`self.ds.close` — an attribute lookup with no call.  Only the openness of
the underlying dataset is modelled. -/

/-- State of a `rasterio` dataset handle. -/
structure DatasetHandle where
  isOpen : Bool
deriving DecidableEq, Repr

/-- `ds.close()`: closing the dataset (what the bound method does when it
is actually called). -/
def DatasetHandle.close (d : DatasetHandle) : DatasetHandle := { d with isOpen := false }

/-- The `Raster` wrapper around its dataset. -/
structure RasterHandle where
  ds : DatasetHandle
deriving DecidableEq, Repr

/-- `Raster.__exit__(a, b, c)`: the body evaluates the attribute
`self.ds.close` (a bound-method lookup, which has no side effect) and never
calls it, so the dataset state is unchanged. -/
def RasterHandle.exitCtx (r : RasterHandle) : RasterHandle :=
  let _ := r.ds.close
  r

/-! ## WindowAccumulator (`src/src/fastws/raster.py`, lines 30-126)

The boolean buffer `a` is a total function plus its shape `(rows, cols)`;
`windows` is the dict `window → (row-slice, col-slice)` as an association
list in insertion order, a slice `(start, stop)` being a pair of integers.
`int(round(...))` is `round : ℚ → ℤ`; on the exact window-derived bounds
every rounded quantity is an exact integer, where Python's banker's
rounding and `round` agree. -/

/-- A pair of slices `(slice(r0, r1), slice(c0, c1))`. -/
abbrev Slices := (ℤ × ℤ) × (ℤ × ℤ)

/-- `self.windows[window]` on the association list (dict keys are unique). -/
def lookupW {α : Type} : List (Window × α) → Window → Option α
  | [], _ => none
  | (w', a) :: rest, w => if w = w' then some a else lookupW rest w

/-- The growing boolean mosaic. -/
structure WindowAccumulator where
  top : ℚ
  left : ℚ
  csx : ℚ
  csy : ℚ
  a : ℤ → ℤ → Bool
  rows : ℤ
  cols : ℤ
  top_accum : ℚ
  bottom_accum : ℚ
  left_accum : ℚ
  right_accum : ℚ
  windows : List (Window × Slices)

/-- `WindowAccumulator.__init__(top, left, csx, csy, init_window)`: bounds
equal to the initial window's extent, an all-false buffer of its shape, and
the window mapped to the full-buffer slices. -/
def WindowAccumulator.init (top left csx csy : ℚ) (w : Window) : WindowAccumulator :=
  { top := top, left := left, csx := csx, csy := csy
    a := fun _ _ => false
    rows := w.height, cols := w.width
    top_accum := top - w.row_off * csy
    bottom_accum := top - (w.row_off + w.height) * csy
    left_accum := left + w.col_off * csx
    right_accum := left + (w.col_off + w.width) * csx
    windows := [(w, ((0, w.height), (0, w.width)))] }

/-- `WindowAccumulator.from_raster(raster, window)`. -/
def WindowAccumulator.from_raster (r : Raster) (w : Window) : WindowAccumulator :=
  WindowAccumulator.init r.top r.left r.csx r.csy w

/-- One `new_a[new_slice] = self.a[_slice]` assignment of the `add_window`
copy loop: `new_slice` is `sl` translated by `(top_offset, left_offset)`,
and inside it the copied cell comes from `a` at the untranslated index. -/
def copySlice (a : ℤ → ℤ → Bool) (top_offset left_offset : ℤ)
    (dst : ℤ → ℤ → Bool) (sl : Slices) : ℤ → ℤ → Bool :=
  fun r c =>
    if sl.1.1 + top_offset ≤ r ∧ r < sl.1.2 + top_offset
        ∧ sl.2.1 + left_offset ≤ c ∧ c < sl.2.2 + left_offset then
      a (r - top_offset) (c - left_offset)
    else dst r c

/-- `WindowAccumulator.add_window(window)`: no-op when the window is
registered; otherwise grow the bounds to the union with the window's
extent, allocate a fresh buffer, copy every registered window's region
translated by the bound shift, translate the slice dict, and insert the new
window's slices. -/
def WindowAccumulator.add_window (s : WindowAccumulator) (w : Window) :
    WindowAccumulator :=
  match lookupW s.windows w with
  | some _ => s
  | none =>
    let window_top := s.top - w.row_off * s.csy
    let window_bottom := s.top - (w.row_off + w.height) * s.csy
    let window_left := s.left + w.col_off * s.csx
    let window_right := s.left + (w.col_off + w.width) * s.csx
    let new_top_accum := max s.top_accum window_top
    let new_bottom_accum := min s.bottom_accum window_bottom
    let new_left_accum := min s.left_accum window_left
    let new_right_accum := max s.right_accum window_right
    let top_offset := round ((new_top_accum - s.top_accum) / s.csy)
    let left_offset := round ((s.left_accum - new_left_accum) / s.csx)
    { s with
      a := s.windows.foldl
          (fun buf p => copySlice s.a top_offset left_offset buf p.2)
          (fun _ _ => false)
      rows := round ((new_top_accum - new_bottom_accum) / s.csy)
      cols := round ((new_right_accum - new_left_accum) / s.csx)
      top_accum := new_top_accum
      bottom_accum := new_bottom_accum
      left_accum := new_left_accum
      right_accum := new_right_accum
      windows := (w, ((round ((new_top_accum - window_top) / s.csy),
                       round ((new_top_accum - window_bottom) / s.csy)),
                      (round ((window_left - new_left_accum) / s.csx),
                       round ((window_right - new_left_accum) / s.csx)))) ::
        s.windows.map (fun p =>
          (p.1, ((p.2.1.1 + top_offset, p.2.1.2 + top_offset),
                 (p.2.2.1 + left_offset, p.2.2.2 + left_offset)))) }

/-- Cell `(r, c)` of the view `self.a[self.windows[window]]`
(`__getitem__`); `false` where the source would raise `KeyError`. -/
def WindowAccumulator.view (s : WindowAccumulator) (w : Window) (r c : ℤ) : Bool :=
  match lookupW s.windows w with
  | some sl => s.a (sl.1.1 + r) (sl.2.1 + c)
  | none => false

/-- A sequence of `add_window` calls. -/
def WindowAccumulator.addWindows (s : WindowAccumulator) (ws : List Window) :
    WindowAccumulator :=
  ws.foldl WindowAccumulator.add_window s

/-- Exact-arithmetic well-formedness of a `WindowAccumulator`: positive
cell sizes; the four bounds lie on the cell lattice of `(top, left)` at
integers `T`, `B`, `L`, `R`; the buffer shape is `(B - T, R - L)`; and
every registered window's slices are those of its own extent, inside the
buffer.  `from_raster` establishes this and `add_window` preserves it. -/
def Inv (s : WindowAccumulator) : Prop :=
  ∃ T B L R : ℤ,
    0 < s.csx ∧ 0 < s.csy
      ∧ s.top_accum = s.top - (T : ℚ) * s.csy
      ∧ s.bottom_accum = s.top - (B : ℚ) * s.csy
      ∧ s.left_accum = s.left + (L : ℚ) * s.csx
      ∧ s.right_accum = s.left + (R : ℚ) * s.csx
      ∧ s.rows = B - T ∧ s.cols = R - L
      ∧ ∀ p ∈ s.windows,
          p.2 = ((p.1.row_off - T, p.1.row_off + p.1.height - T),
                 (p.1.col_off - L, p.1.col_off + p.1.width - L))
            ∧ T ≤ p.1.row_off ∧ p.1.row_off + p.1.height ≤ B
            ∧ L ≤ p.1.col_off ∧ p.1.col_off + p.1.width ≤ R

/-- Concrete accumulator for the mosaic claim: the 2×2 window at the origin
on a unit grid, with one cell of its view set true. -/
def waC5 : WindowAccumulator :=
  { WindowAccumulator.init 0 0 1 1 ⟨0, 0, 2, 2⟩ with
    a := fun r c => decide (r = 0 ∧ c = 1) }

/-! ## Delineation orchestrator (`src/src/fastws/watershed.py`, lines 122-203)

The per-window work stacks are the dict `stack` (association list in
insertion order); the coverage mosaic is modelled by the set of global
cells it marks true — by the `WindowAccumulator` development above, every
`coverage[window][i, j] = True` write lands at the window's cells of the
mosaic and survives every later `add_window`, and block windows tile
disjoint regions, so the mosaic's true-set is exactly this set of global
cells.  `add_window` itself is therefore a no-op here. -/

/-- `stack[window]`, `[]` when the key is absent (the `except KeyError`
path initialises absent keys). -/
def getStack (st : List (Window × List (ℤ × ℤ))) (w : Window) : List (ℤ × ℤ) :=
  match lookupW st w with
  | some l => l
  | none => []

/-- `stack[window] = l`: replace in place, or append the new key (Python
dict insertion order). -/
def setStack : List (Window × List (ℤ × ℤ)) → Window → List (ℤ × ℤ) →
    List (Window × List (ℤ × ℤ))
  | [], w, l => [(w, l)]
  | (w', l') :: rest, w, l =>
    if w = w' then (w', l) :: rest else (w', l') :: setStack rest w l

/-- The global cell of local index `c` of window `w`. -/
def glob (w : Window) (c : ℤ × ℤ) : ℤ × ℤ := (w.row_off + c.1, w.col_off + c.2)

/-- Orchestrator state: the work-stack dict and the set of mosaic cells
marked true. -/
structure DelinState where
  stack : List (Window × List (ℤ × ℤ))
  marks : Finset (ℤ × ℤ)

/-- `edges[:, 1] < 0` on one `[dir, i, j]` row. -/
def topSlice (e : ℤ × ℤ × ℤ) : Bool := decide (e.2.1 < 0)

/-- `edges[:, 1] == data.shape[0]`. -/
def bottomSlice (H : ℤ) (e : ℤ × ℤ × ℤ) : Bool := decide (e.2.1 = H)

/-- `edges[:, 2] < 0`. -/
def leftSlice (e : ℤ × ℤ × ℤ) : Bool := decide (e.2.2 < 0)

/-- `edges[:, 2] == data.shape[1]`. -/
def rightSlice (W : ℤ) (e : ℤ × ℤ × ℤ) : Bool := decide (e.2.2 = W)

/-- The eight `bool_slice` subsets of the `[dir, i, j]` edge rows, in
source order: N, S, W, E, then the four diagonals. -/
def bucketList (H W : ℤ) (rows : List (ℤ × ℤ × ℤ)) : List (List (ℤ × ℤ × ℤ)) :=
  [rows.filter (fun e => topSlice e && !leftSlice e && !rightSlice W e),
   rows.filter (fun e => bottomSlice H e && !leftSlice e && !rightSlice W e),
   rows.filter (fun e => leftSlice e && !topSlice e && !bottomSlice H e),
   rows.filter (fun e => rightSlice W e && !topSlice e && !bottomSlice H e),
   rows.filter (fun e => topSlice e && leftSlice e),
   rows.filter (fun e => topSlice e && rightSlice W e),
   rows.filter (fun e => bottomSlice H e && leftSlice e),
   rows.filter (fun e => bottomSlice H e && rightSlice W e)]

/-- The body of `for bool_slice in (...)` for one non-empty bucket: take
the first row as representative, resolve the adjacent window through
`xy_from_window_index` and `intersecting_window` (an `IndexError` drops the
bucket), translate every row by the representative's offset, keep the rows
whose flow-direction cell equals the expected code, mark them in the
mosaic, and append them to the target window's stack. -/
def processBucket (fd : Raster) (w : Window) (st : DelinState)
    (bucket : List (ℤ × ℤ × ℤ)) : DelinState :=
  match bucket with
  | [] => st
  | (_, ei, ej) :: _ =>
    match fd.intersecting_window (fd.xy_from_window_index ei ej w).1
        (fd.xy_from_window_index ei ej w).2 with
    | none => st
    | some (w', i', j') =>
      let translated := bucket.map fun e => (e.1, e.2.1 + (i' - ei), e.2.2 + (j' - ej))
      let verified := translated.filter fun e => decide (fd.readCell w' e.2.1 e.2.2 = e.1)
      { stack := setStack st.stack w'
          (getStack st.stack w' ++ verified.map fun e => (e.2.1, e.2.2))
        marks := st.marks
          ∪ (verified.map fun e => glob w' (e.2.1, e.2.2)).toFinset }

/-- `next_delin(stack, window)`: run the kernel on the window's stack,
clear it, mark the basin cells, and hand the edge rows off bucket by
bucket.  `none` when the kernel fuel runs out. -/
def next_delin (fd : Raster) (kfuel : ℕ) (st : DelinState) (w : Window) :
    Option DelinState :=
  match delineate_task (fd.fdWin w) w.height (getStack st.stack w) kfuel with
  | none => none
  | some out =>
    some ((bucketList w.height w.width (out.edge_directions.zip out.edges)).foldl
      (processBucket fd w)
      { stack := setStack st.stack w []
        marks := st.marks ∪ (out.basin.map (glob w)).toFinset })

/-- The `while True` main loop of `delineate`, §4.5.6's choice of next
window abstracted as `pick` (the source uses the first dict key with a
non-empty stack; any admissible choice is allowed here).  Returns the final
marked set; `none` when fuel runs out. -/
def delinMainLoop (fd : Raster) (kfuel : ℕ) (pick : DelinState → Option Window) :
    ℕ → DelinState → Window → Option (Finset (ℤ × ℤ))
  | 0, _, _ => none
  | n + 1, st, w =>
    match next_delin fd kfuel st w with
    | none => none
    | some st' =>
      match pick st' with
      | none => some st'.marks
      | some w' => delinMainLoop fd kfuel pick n st' w'

/-- An admissible §4.5.6 choice: when `pick` yields a window its stack is
non-empty, and it yields nothing only when every stack is empty. -/
def ValidPick (pick : DelinState → Option Window) : Prop :=
  ∀ st : DelinState,
    (∀ w, pick st = some w → getStack st.stack w ≠ [])
      ∧ (pick st = none → ∀ w, getStack st.stack w = [])

/-- The source's own choice: the first dict entry with a non-empty stack. -/
def firstPick (st : DelinState) : Option Window :=
  (st.stack.find? fun p => !p.2.isEmpty).map (·.1)

/-- An admissible concrete choice used to instantiate the
schedule-invariance theorem: the first dict entry whose looked-up stack is
non-empty (on unique-key dicts this is the source's `next(...)` choice). -/
def goodPick (st : DelinState) : Option Window :=
  (st.stack.find? fun p => !(getStack st.stack p.1).isEmpty).map (·.1)

/-- A one-block unit raster (1 × 1, unit cells, all flow directions 0)
used to instantiate the schedule-invariance theorem. -/
def fdW6 : Raster :=
  { top := 0, left := 0, csx := 1, csy := 1, height := 1, width := 1,
    blockH := 1, blockW := 1, nodata := 0, data := fun _ _ => 0 }


/-- `w` is a full `b × b` block of raster `r`'s layout (the raster
dimensions are exact multiples of `b`). -/
def IsBlock (r : Raster) (b : ℤ) (w : Window) : Prop :=
  ∃ bi bj : ℤ, 0 ≤ bi ∧ 0 ≤ bj
    ∧ w = ⟨bi * b, bj * b, b, b⟩
    ∧ (bi + 1) * b ≤ r.height ∧ (bj + 1) * b ≤ r.width

/-- Well-formed orchestrator state: every stack key with content is a full
block, its cells are within the block, and every stacked cell is already
marked (the orchestrator marks each cell when it enqueues it). -/
def WFState (r : Raster) (b : ℤ) (st : DelinState) : Prop :=
  ∀ p ∈ st.stack, ∀ c ∈ p.2,
    IsBlock r b p.1 ∧ 0 ≤ c.1 ∧ c.1 < b ∧ 0 ≤ c.2 ∧ c.2 < b
      ∧ glob p.1 c ∈ st.marks

/-- The in-window contribution relation of the kernel in window `w` of a
`b × b` block: `t` is pushed while popping `c` iff it is an 8-neighbor
passing the kernel's bounds test whose flow direction points back at `c`.
(`fd` is read at global coordinates, as `fd[window]` does.) -/
def contrib (fd : Raster) (b : ℤ) (w : Window) (c t : ℤ × ℤ) : Prop :=
  ∃ o ∈ nbrs, t = (c.1 + o.1, c.2 + o.2)
    ∧ ¬(t.1 < 0 ∨ t.2 < 0 ∨ t.1 = b ∨ t.2 = b)
    ∧ 0 < fd.readCell w t.1 t.2
    ∧ fd.readCell w t.1 t.2 = dirAt o.1 o.2

/-- Whether the global cell `g` lies on the raster. -/
def onRaster (r : Raster) (g : ℤ × ℤ) : Prop :=
  0 ≤ g.1 ∧ g.1 < r.height ∧ 0 ≤ g.2 ∧ g.2 < r.width

/-- The derived pending relation: `(w, c)` is eventually on some work
stack.  Base: it is on a stack now.  Step: from a pending cell, walk the
in-window closure, take an edge neighbor `t` whose global cell is on the
raster (otherwise the bucket is dropped), check the expected code, and
re-enter at the containing block. -/
inductive Pend (fd : Raster) (b : ℤ) (stack : List (Window × List (ℤ × ℤ))) :
    Window → ℤ × ℤ → Prop
  | base (w : Window) (c : ℤ × ℤ) (hc : c ∈ getStack stack w) : Pend fd b stack w c
  | step (w : Window) (c d t : ℤ × ℤ) (o : ℤ × ℤ) (w' : Window)
      (hp : Pend fd b stack w c)
      (hreach : Relation.ReflTransGen (contrib fd b w) c d)
      (ho : o ∈ nbrs) (ht : t = (d.1 + o.1, d.2 + o.2))
      (hedge : t.1 < 0 ∨ t.2 < 0 ∨ t.1 = b ∨ t.2 = b)
      (hw' : IsBlock fd b w'
        ∧ 0 ≤ (glob w t).1 - w'.row_off ∧ (glob w t).1 - w'.row_off < b
        ∧ 0 ≤ (glob w t).2 - w'.col_off ∧ (glob w t).2 - w'.col_off < b)
      (hmatch : fd.data (glob w t).1 (glob w t).2 = dirAt o.1 o.2) :
      Pend fd b stack w' ((glob w t).1 - w'.row_off, (glob w t).2 - w'.col_off)

/-- Every mosaic cell the orchestrator will still mark, given the current
marks and stacks: the marks plus the global cells of the in-window closure
of every eventually-pending cell. -/
def MSet (fd : Raster) (b : ℤ) (st : DelinState) : Set (ℤ × ℤ) :=
  ↑st.marks ∪ {g | ∃ w c t, Pend fd b st.stack w c
    ∧ Relation.ReflTransGen (contrib fd b w) c t ∧ g = glob w t}

/-! ### Characterization artifacts for the kernel loop -/

/-- The kernel's bounds test (`t_i < 0 or t_j < 0 or t_i == fd.shape[0] or
t_j == fd.shape[0]`), as a boolean on the neighbor cell. -/
def kedgeTest (H : ℤ) (t : ℤ × ℤ) : Bool :=
  decide (t.1 < 0 ∨ t.2 < 0 ∨ t.1 = H ∨ t.2 = H)

/-- Whether popping `(i, j)` pushes the neighbor at offset `o`. -/
def kpushTest (f : ℤ → ℤ → ℤ) (H i j : ℤ) (o : ℤ × ℤ) : Bool :=
  !kedgeTest H (i + o.1, j + o.2)
    && decide (0 < f (i + o.1) (j + o.2))
    && decide (f (i + o.1) (j + o.2) = dirAt o.1 o.2)

/-- The cells one pop of `(i, j)` pushes, in offset-list order. -/
def pushesOf (f : ℤ → ℤ → ℤ) (H i j : ℤ) (l : List (ℤ × ℤ)) : List (ℤ × ℤ) :=
  (l.filter (kpushTest f H i j)).map fun o => (i + o.1, j + o.2)

/-- The `(dir, edge-cell)` rows one pop of `(i, j)` appends, in
offset-list order. -/
def edgesOfPop (H i j : ℤ) (l : List (ℤ × ℤ)) : List (ℤ × (ℤ × ℤ)) :=
  (l.filter fun o => kedgeTest H (i + o.1, j + o.2)).map
    fun o => (dirAt o.1 o.2, (i + o.1, j + o.2))

/-- The kernel's contribution relation over the local window data `f`
with bounds parameter `H`: `t` is pushed while popping `c`. -/
def kcontrib (f : ℤ → ℤ → ℤ) (H : ℤ) (c t : ℤ × ℤ) : Prop :=
  ∃ o ∈ nbrs, t = (c.1 + o.1, c.2 + o.2)
    ∧ ¬(t.1 < 0 ∨ t.2 < 0 ∨ t.1 = H ∨ t.2 = H)
    ∧ 0 < f t.1 t.2 ∧ f t.1 t.2 = dirAt o.1 o.2

/-- Helper: the reference tracer and its §4.2 rewording are the same
function (the bounds tests are logically equivalent at every step). -/
theorem find_stream_task_eq_spec : @find_stream_task = @findStreamTaskSpec := by
  funext stream fd H W fuel i j
  induction fuel generalizing i j with
  | zero => rfl
  | succ n ih =>
    simp only [find_stream_task, findStreamTaskSpec]
    by_cases hs : stream i j
    · simp [hs]
    · simp only [hs, if_false, Bool.false_eq_true]
      by_cases hf : fd i j ≤ 0
      · simp [hf]
      · simp only [hf, if_false]
        by_cases hb : i + (offsetOf (fd i j)).1 < 0 ∨ i + (offsetOf (fd i j)).1 ≥ H ∨
            j + (offsetOf (fd i j)).2 < 0 ∨ j + (offsetOf (fd i j)).2 ≥ W
        · rw [if_pos hb, if_neg (by omega)]
        · rw [if_neg hb, if_pos (by omega), ih]

/-- C1 counterexample.  In a 3×3 window seeded at `(1, 1)`, the neighbor at
offset `(-1, -1)` is the in-window cell `(0, 0)`, whose flow-direction value
`3` is positive and equals `specInverseAt (-1) (-1)` — by the claim's table
it should be added to the basin — yet `delineate_task` returns an empty
basin: the code compares against `kernelDirections` (`7` here), not the
spec's table. -/
theorem delineate_task_spec_table_fails :
    fdC1 0 0 = specInverseAt (-1) (-1)
      ∧ 0 < fdC1 0 0
      ∧ ((1 : ℤ) + -1 = 0 ∧ (1 : ℤ) + -1 = 0 ∧ 0 ≤ (0 : ℤ) ∧ (0 : ℤ) < 3)
      ∧ (delineate_task fdC1 3 [(1, 1)] 9).map KState.basin = some [] := by
  refine ⟨by decide, by decide, by decide, by decide⟩

/-- C1 amended.  In `delineate_task`, a neighbor at offset `(dr, dc)` from a
popped cell `(i, j)` is appended to the basin and re-enqueued iff it passes
the code's bounds test (both overshoot comparisons against `fd.shape[0] = H`),
its flow-direction value is positive, and that value equals
`kernelDirections[dr+1][dc+1]` where `kernelDirections = [[7,6,5],[8,0,4],[1,2,3]]`. -/
theorem delineate_task_neighbor_added_iff (fd : ℤ → ℤ → ℤ) (H i j dr dc : ℤ)
    (s : KState) :
    ((visitNbr fd H i j s (dr, dc)).basin = s.basin ++ [(i + dr, j + dc)]
        ∧ (visitNbr fd H i j s (dr, dc)).stack = (i + dr, j + dc) :: s.stack)
      ↔ (¬(i + dr < 0 ∨ j + dc < 0 ∨ i + dr = H ∨ j + dc = H)
          ∧ 0 < fd (i + dr) (j + dc)
          ∧ fd (i + dr) (j + dc) = dirAt dr dc) := by
  simp only [visitNbr]
  by_cases hb : i + dr < 0 ∨ j + dc < 0 ∨ i + dr = H ∨ j + dc = H
  · rw [if_pos hb]
    constructor
    · rintro ⟨h, -⟩
      exact absurd (congrArg List.length h) (by simp)
    · rintro ⟨hnb, -⟩
      exact absurd hb hnb
  · rw [if_neg hb]
    by_cases hf : fd (i + dr) (j + dc) ≤ 0
    · rw [if_pos hf]
      constructor
      · rintro ⟨h, -⟩
        exact absurd (congrArg List.length h) (by simp)
      · rintro ⟨-, hpos, -⟩
        omega
    · rw [if_neg hf]
      by_cases hm : fd (i + dr) (j + dc) = dirAt dr dc
      · rw [if_pos hm]
        exact ⟨fun _ => ⟨hb, by omega, hm⟩, fun _ => ⟨rfl, rfl⟩⟩
      · rw [if_neg hm]
        constructor
        · rintro ⟨h, -⟩
          exact absurd (congrArg List.length h) (by simp)
        · rintro ⟨-, -, heq⟩
          exact absurd heq hm

/-- C1 amended, witness: in a 3×3 window, the neighbor of the popped cell
`(1, 1)` at offset `(-1, -1)` carrying value `7 = kernelDirections[0][0]`
is added to the basin and pushed. -/
theorem delineate_task_neighbor_added_iff_witness :
    (visitNbr (fun i j => if i = 0 ∧ j = 0 then 7 else 0) 3 1 1 ⟨[], [], [], []⟩
        (-1, -1)).basin = [] ++ [(1 + -1, 1 + -1)]
      ∧ (visitNbr (fun i j => if i = 0 ∧ j = 0 then 7 else 0) 3 1 1 ⟨[], [], [], []⟩
        (-1, -1)).stack = (1 + -1, 1 + -1) :: [] :=
  (delineate_task_neighbor_added_iff (fun i j => if i = 0 ∧ j = 0 then 7 else 0)
    3 1 1 (-1) (-1) ⟨[], [], [], []⟩).mpr (by decide)

/-- C2 failing input.  In a window of shape `H = 2`, `W = 3` seeded at
`(0, 1)`, the neighbor `(0, 2)` lies inside `[0, 2) × [0, 3)`, yet
`delineate_task` reports it in `edges` (and likewise `(1, 2)`), because the
source compares `t_j` against `fd.shape[0] = 2` instead of `fd.shape[1] = 3`. -/
theorem delineate_task_reports_in_range_edge :
    (0 ≤ (0 : ℤ) ∧ (0 : ℤ) < 2 ∧ 0 ≤ (2 : ℤ) ∧ (2 : ℤ) < 3)
      ∧ (delineate_task fdZero 2 [(0, 1)] 2).map KState.edges
          = some [(-1, 0), (-1, 1), (-1, 2), (0, 2), (1, 2)] := by
  refine ⟨by decide, by decide⟩

/-- C3.  One step of `find_stream_task` behaves exactly as §4.2 describes:
a stream cell returns `(true, i, j)` at once; otherwise `fd[i,j] ≤ 0`
returns `(false, i, j)`; otherwise the walker advances by
`directions[fd[i,j]]` and either returns `(false, i', j')` when the new
position leaves `[0,H) × [0,W)` (coordinates preserved) or continues from
the new position. -/
theorem find_stream_task_step (stream : ℤ → ℤ → Bool) (fd : ℤ → ℤ → ℤ)
    (H W : ℤ) (fuel : ℕ) (i j : ℤ) :
    (stream i j = true →
        find_stream_task stream fd H W (fuel + 1) i j = some (true, i, j))
      ∧ (stream i j = false → fd i j ≤ 0 →
          find_stream_task stream fd H W (fuel + 1) i j = some (false, i, j))
      ∧ (stream i j = false → 0 < fd i j →
          (¬(0 ≤ i + (offsetOf (fd i j)).1 ∧ i + (offsetOf (fd i j)).1 < H
                ∧ 0 ≤ j + (offsetOf (fd i j)).2 ∧ j + (offsetOf (fd i j)).2 < W) →
              find_stream_task stream fd H W (fuel + 1) i j
                = some (false, i + (offsetOf (fd i j)).1, j + (offsetOf (fd i j)).2))
            ∧ ((0 ≤ i + (offsetOf (fd i j)).1 ∧ i + (offsetOf (fd i j)).1 < H
                ∧ 0 ≤ j + (offsetOf (fd i j)).2 ∧ j + (offsetOf (fd i j)).2 < W) →
              find_stream_task stream fd H W (fuel + 1) i j
                = find_stream_task stream fd H W fuel
                    (i + (offsetOf (fd i j)).1) (j + (offsetOf (fd i j)).2))) := by
  refine ⟨fun hs => by simp [find_stream_task, hs], fun hs hf => by
    simp [find_stream_task, hs, hf], fun hs hf => ⟨fun hout => ?_, fun hin => ?_⟩⟩
  · simp only [find_stream_task, hs, Bool.false_eq_true, if_false,
      if_neg (by omega : ¬fd i j ≤ 0)]
    rw [if_pos (by omega)]
  · simp only [find_stream_task, hs, Bool.false_eq_true, if_false,
      if_neg (by omega : ¬fd i j ≤ 0)]
    rw [if_neg (by omega)]

/-- C3 witness: each arm of `find_stream_task_step` instantiated on a
concrete 2×2 window (stream cell at `(0,0)`; `fd[0,1] = 4` points left into
the window; `fd[1,0] = 6` points down out of the window; `fd[1,1] = 0`). -/
theorem find_stream_task_step_witness :
    find_stream_task (fun i j => decide (i = 0 ∧ j = 0))
        (fun i j => if i = 0 ∧ j = 1 then 4 else if i = 1 ∧ j = 0 then 6 else 0)
        2 2 6 0 0 = some (true, 0, 0)
      ∧ find_stream_task (fun i j => decide (i = 0 ∧ j = 0))
          (fun i j => if i = 0 ∧ j = 1 then 4 else if i = 1 ∧ j = 0 then 6 else 0)
          2 2 6 1 1 = some (false, 1, 1)
      ∧ find_stream_task (fun i j => decide (i = 0 ∧ j = 0))
          (fun i j => if i = 0 ∧ j = 1 then 4 else if i = 1 ∧ j = 0 then 6 else 0)
          2 2 6 1 0 = some (false, 1 + 1, 0 + 0)
      ∧ find_stream_task (fun i j => decide (i = 0 ∧ j = 0))
          (fun i j => if i = 0 ∧ j = 1 then 4 else if i = 1 ∧ j = 0 then 6 else 0)
          2 2 6 0 1 = find_stream_task (fun i j => decide (i = 0 ∧ j = 0))
            (fun i j => if i = 0 ∧ j = 1 then 4 else if i = 1 ∧ j = 0 then 6 else 0)
            2 2 5 (0 + 0) (1 + -1) :=
  ⟨(find_stream_task_step (fun i j => decide (i = 0 ∧ j = 0))
      (fun i j => if i = 0 ∧ j = 1 then 4 else if i = 1 ∧ j = 0 then 6 else 0)
      2 2 5 0 0).1 (by decide),
    (find_stream_task_step (fun i j => decide (i = 0 ∧ j = 0))
      (fun i j => if i = 0 ∧ j = 1 then 4 else if i = 1 ∧ j = 0 then 6 else 0)
      2 2 5 1 1).2.1 (by decide) (by decide),
    ((find_stream_task_step (fun i j => decide (i = 0 ∧ j = 0))
      (fun i j => if i = 0 ∧ j = 1 then 4 else if i = 1 ∧ j = 0 then 6 else 0)
      2 2 5 1 0).2.2 (by decide) (by decide)).1 (by decide),
    ((find_stream_task_step (fun i j => decide (i = 0 ∧ j = 0))
      (fun i j => if i = 0 ∧ j = 1 then 4 else if i = 1 ∧ j = 0 then 6 else 0)
      2 2 5 0 1).2.2 (by decide) (by decide)).2 (by decide)⟩

/-- C8 counterexample.  `find_stream_task` (the tracer) equals the §4.2
algorithm on every input — in particular its right-edge overshoot test uses
the window width `fd.shape[1]`, so no window, square or not, has its exit
misclassified; the `shape[0]` comparison the claim alleges is absent from
the tracer. -/
theorem find_stream_task_matches_spec : @find_stream_task = @findStreamTaskSpec :=
  find_stream_task_eq_spec

/-- C8 amended.  The off-by-dimension overshoot test lives in
`delineate_task` (the upstream kernel), not in `find_stream_task`: the
tracer equals its §4.2 description on all windows, while the kernel in a
non-square `H = 2`, `W = 4` window classifies the in-range neighbor `(0, 2)`
of the seed `(1, 2)` as an edge because it compares `t_j` with `fd.shape[0]`. -/
theorem overshoot_bug_is_in_kernel_not_tracer :
    @find_stream_task = @findStreamTaskSpec
      ∧ (0 ≤ (0 : ℤ) ∧ (0 : ℤ) < 2 ∧ 0 ≤ (2 : ℤ) ∧ (2 : ℤ) < 4)
      ∧ (delineate_task fdZero 2 [(1, 2)] 2).map KState.edges
          = some [(0, 2), (2, 1), (2, 2), (2, 3)] :=
  ⟨find_stream_task_eq_spec, by decide, by decide⟩

/-! ### Evaluation lemmas on the concrete 1×2 raster -/

/-- Helper: the cell-center of local index `(0, 1)` on the single block. -/
theorem xyC4_01 : fdC4.xy_from_window_index 0 1 wC4 = (3/2, -1/2) := by
  simp only [Raster.xy_from_window_index, Raster.window_extent, fdC4, wC4]
  norm_num

/-- Helper: resolving the cell-center of `(0, 1)` lands back on the same
window at the same index. -/
theorem iwC4_01 : fdC4.intersecting_window (3/2) (-1/2) = some (wC4, 0, 1) := by
  rw [Raster.intersecting_window, show fdC4.block_windows = [wC4] from by decide]
  rw [List.find?]
  rw [show fdC4.intersectsPt (3/2) (-1/2) wC4 = true from by
    simp only [Raster.intersectsPt, Raster.window_extent, fdC4, wC4]
    norm_num]
  simp only [Option.map_some', Option.some.injEq, Prod.mk.injEq, Raster.window_extent,
    fdC4, wC4]
  norm_num

/-- Helper: one iteration of the `find_stream` loop at the interior
`fd = 0`, non-stream cell `(0, 1)` reproduces exactly the same loop state:
the `(false, i, j)` result of `find_stream_task` keeps the in-window index,
`intersecting_window` resolves its cell-center back to the same cell, and
the tracer returns `(false, 0, 1)` again. -/
theorem fsLoopC4_step (n : ℕ) :
    fsLoop streamsC4 fdC4 faC4 (n + 1) false wC4 0 1
      = fsLoop streamsC4 fdC4 faC4 n false wC4 0 1 := by
  have htask : find_stream_task (streamsC4.maskWin wC4) (fdC4.fdWin wC4)
      wC4.height wC4.width (n + 1) 0 1 = some (false, 0, 1) := rfl
  simp only [fsLoop, xyC4_01, iwC4_01, htask, Bool.false_eq_true, if_false]

/-- Helper: no fuel lets the `find_stream` loop leave cell `(0, 1)`. -/
theorem fsLoopC4_none : ∀ n, fsLoop streamsC4 fdC4 faC4 n false wC4 0 1 = none := by
  intro n
  induction n with
  | zero => rfl
  | succ k ih => rw [fsLoopC4_step]; exact ih

/-- Helper: the query point `(1/2, -1/2)` resolves to cell `(0, 0)`. -/
theorem iwC4_00 : fdC4.intersecting_window (1/2) (-1/2) = some (wC4, 0, 0) := by
  rw [Raster.intersecting_window, show fdC4.block_windows = [wC4] from by decide]
  rw [List.find?]
  rw [show fdC4.intersectsPt (1/2) (-1/2) wC4 = true from by
    simp only [Raster.intersectsPt, Raster.window_extent, fdC4, wC4]
    norm_num]
  simp only [Option.map_some', Option.some.injEq, Prod.mk.injEq, Raster.window_extent,
    fdC4, wC4]
  norm_num

/-- Helper: `find_stream` on the 1×2 raster exhausts any amount of fuel. -/
theorem findStreamC4_none : ∀ fuel : ℕ,
    find_stream streamsC4 fdC4 faC4 (1/2) (-1/2) fuel = none := by
  intro fuel
  match fuel with
  | 0 => simp only [find_stream, iwC4_00]; rfl
  | 1 => simp only [find_stream, iwC4_00]; rfl
  | (n + 2) =>
    have htask : find_stream_task (streamsC4.maskWin wC4) (fdC4.fdWin wC4)
        wC4.height wC4.width (n + 2) 0 0 = some (false, 0, 1) := rfl
    simp only [find_stream, iwC4_00, htask]
    rw [if_neg (by decide)]
    exact fsLoopC4_none (n + 2)

/-- C4 failing input.  On the acyclic 1×2 raster `fdC4` (the only flow
edge is `(0,0) → (0,1)`, and `(0,1)` has `fd = 0`, so there is no cycle)
with a valid start cell (`fd = 8`, not nodata) and no stream cell anywhere,
`find_stream` never returns for any fuel: `find_stream_task` stops *inside*
the window at the `fd ≤ 0` cell `(0, 1)` with `found = false`, the outer
loop re-resolves that same in-window cell and calls the tracer again from
it, forever.  The claim's three allowed outcomes are never produced. -/
theorem find_stream_nonterminating :
    fdC4.readCell wC4 0 0 = 8
      ∧ fdC4.readCell wC4 0 1 = 0
      ∧ streamsC4.maskWin wC4 0 1 = false
      ∧ ∀ fuel : ℕ, find_stream streamsC4 fdC4 faC4 (1/2) (-1/2) fuel = none :=
  ⟨rfl, rfl, rfl, findStreamC4_none⟩

/-- Helper: the `find_stream` loop can never produce the bad-direction
error; that `ValueError` is raised only by the pre-walk check. -/
theorem fsLoop_ne_badPoint (streams fd fa : Raster) :
    ∀ (fuel : ℕ) (f : Bool) (w : Window) (i j : ℤ),
      fsLoop streams fd fa fuel f w i j ≠ some .badPoint := by
  intro fuel
  induction fuel with
  | zero => intro f w i j h; exact Option.noConfusion h
  | succ n ih =>
    intro f w i j
    cases f with
    | true => simp [fsLoop]
    | false =>
      simp only [fsLoop, Bool.false_eq_true, if_false]
      split
      · simp
      · split
        · simp
        · exact ih _ _ _ _

/-- C7.  `find_stream`'s failure modes: (1) given that the query point
resolves to starting cell `(i, j)` of window `w`, the bad-direction
`ValueError` is raised iff `fd` there is the nodata sentinel or ≤ 0 (and
only before walking — the loop itself never raises it, see
`fsLoop_ne_badPoint`); (2) when the walker has left a window with
`found = false` and no window intersects the exit coordinate, the loop
raises the no-streams `ValueError`; (3) when a stream cell has been
reached (`found = true`), the loop raises nothing and returns the snapped
cell-center coordinate with the drainage area `|fa·csx·csy|`. -/
theorem find_stream_failure_modes (streams fd fa : Raster) (x y : ℚ) (fuel : ℕ) :
    (∀ (w : Window) (i j : ℤ), fd.intersecting_window x y = some (w, i, j) →
        (find_stream streams fd fa x y fuel = some .badPoint
          ↔ (fd.readCell w i j = fd.nodata ∨ fd.readCell w i j ≤ 0)))
      ∧ (∀ (w : Window) (i j : ℤ),
          fd.intersecting_window (fd.xy_from_window_index i j w).1
              (fd.xy_from_window_index i j w).2 = none →
          fsLoop streams fd fa (fuel + 1) false w i j = some .noStreams)
      ∧ (∀ (w : Window) (i j : ℤ),
          fsLoop streams fd fa (fuel + 1) true w i j
            = some (.ok (fd.xy_from_window_index i j w).1
                (fd.xy_from_window_index i j w).2
                |(fa.readCell w i j : ℚ) * fa.csx * fa.csy|)) := by
  refine ⟨fun w i j hiw => ?_, fun w i j hnone => ?_, fun w i j => rfl⟩
  · simp only [find_stream, hiw]
    constructor
    · intro hres
      by_contra hbad
      rw [if_neg hbad] at hres
      cases ht : find_stream_task (streams.maskWin w) (fd.fdWin w) w.height w.width
          fuel i j with
      | none => rw [ht] at hres; exact Option.noConfusion hres
      | some r =>
        obtain ⟨fl, i', j'⟩ := r
        rw [ht] at hres
        exact fsLoop_ne_badPoint streams fd fa fuel fl w i' j' hres
    · intro hbad
      rw [if_pos hbad]
  · simp only [fsLoop, Bool.false_eq_true, if_false, hnone]

/-- Helper: on the all-zero 1×2 raster the start cell resolves normally. -/
theorem iwStart0 : fdStart0.intersecting_window (1/2) (-1/2) = some (wC4, 0, 0) := by
  rw [Raster.intersecting_window, show fdStart0.block_windows = [wC4] from by decide]
  rw [List.find?]
  rw [show fdStart0.intersectsPt (1/2) (-1/2) wC4 = true from by
    simp only [Raster.intersectsPt, Raster.window_extent, fdStart0, fdC4, wC4]
    norm_num]
  simp only [Option.map_some', Option.some.injEq, Prod.mk.injEq, Raster.window_extent,
    fdStart0, fdC4, wC4]
  norm_num

/-- Helper: the cell-center of the out-of-window index `(-1, 0)` lies above
the raster top. -/
theorem xyC4_m10 : fdC4.xy_from_window_index (-1) 0 wC4 = (1/2, 1/2) := by
  simp only [Raster.xy_from_window_index, Raster.window_extent, fdC4, wC4]
  norm_num

/-- Helper: no block of the 1×2 raster contains the point `(1/2, 1/2)`. -/
theorem iwC4_above : fdC4.intersecting_window (1/2) (1/2) = none := by
  rw [Raster.intersecting_window, show fdC4.block_windows = [wC4] from by decide]
  rw [List.find?]
  rw [show fdC4.intersectsPt (1/2) (1/2) wC4 = false from by
    simp only [Raster.intersectsPt, Raster.window_extent, fdC4, wC4]
    norm_num]
  rfl

/-- C7 witness: the three arms of `find_stream_failure_modes` on the 1×2
rasters — a start cell with `fd = 0` raises the bad-direction error, an
exit above the raster raises the no-streams error, and a found stream cell
returns the snapped coordinate and area. -/
theorem find_stream_failure_modes_witness :
    find_stream streamsC4 fdStart0 faC4 (1/2) (-1/2) 5 = some .badPoint
      ∧ fsLoop streamsC4 fdC4 faC4 3 false wC4 (-1) 0 = some .noStreams
      ∧ fsLoop streamsC4 fdC4 faC4 3 true wC4 0 0
          = some (.ok (fdC4.xy_from_window_index 0 0 wC4).1
              (fdC4.xy_from_window_index 0 0 wC4).2
              |(faC4.readCell wC4 0 0 : ℚ) * faC4.csx * faC4.csy|) :=
  ⟨((find_stream_failure_modes streamsC4 fdStart0 faC4 (1/2) (-1/2) 5).1 wC4 0 0
      iwStart0).mpr (by decide),
    (find_stream_failure_modes streamsC4 fdC4 faC4 0 0 2).2.1 wC4 (-1) 0
      (by rw [xyC4_m10]; exact iwC4_above),
    (find_stream_failure_modes streamsC4 fdC4 faC4 0 0 2).2.2 wC4 0 0⟩

/-- C10.  When `intersecting_window` returns `(w, i, j)` (so `w` is the
first block whose inclusive bounds contain the point) and the point lies
exactly on `w`'s right bound, the returned column index is `j = w.width`,
outside `[0, w.width)`; symmetrically, a point exactly on `w`'s bottom
bound yields `i = w.height`.  The inclusive bounding test admits these
boundary points while the floor-division index formula pushes them one
past the last cell. -/
theorem intersecting_window_boundary (r : Raster) (x y : ℚ) (w : Window) (i j : ℤ)
    (h : r.intersecting_window x y = some (w, i, j)) :
    (0 < r.csx → x = (r.window_extent w).right → j = w.width ∧ ¬j < w.width)
      ∧ (0 < r.csy → y = (r.window_extent w).bottom → i = w.height ∧ ¬i < w.height) := by
  rw [Raster.intersecting_window, Option.map_eq_some'] at h
  obtain ⟨w₀, hfind, heq⟩ := h
  simp only [Prod.mk.injEq] at heq
  obtain ⟨hw, hi, hj⟩ := heq
  subst hw
  constructor
  · intro hcsx hx
    have hne : r.csx ≠ 0 := ne_of_gt hcsx
    have hquot : (x - (r.window_extent w₀).left) / r.csx = ((w₀.width : ℤ) : ℚ) := by
      rw [div_eq_iff hne, hx]
      simp only [Raster.window_extent]
      ring
    have hjw : j = w₀.width := by rw [← hj, hquot, Int.floor_intCast]
    exact ⟨hjw, by omega⟩
  · intro hcsy hy
    have hne : r.csy ≠ 0 := ne_of_gt hcsy
    have hquot : ((r.window_extent w₀).top - y) / r.csy = ((w₀.height : ℤ) : ℚ) := by
      rw [div_eq_iff hne, hy]
      simp only [Raster.window_extent]
      ring
    have hiw : i = w₀.height := by rw [← hi, hquot, Int.floor_intCast]
    exact ⟨hiw, by omega⟩

/-- Helper: the block layout of the 4×4 raster with 2×2 blocks. -/
theorem bwC10 : rC10.block_windows
    = [wC10, ⟨0, 2, 2, 2⟩, ⟨2, 0, 2, 2⟩, ⟨2, 2, 2, 2⟩] := by decide

/-- Helper: the point `(2, -1/2)` on the shared right boundary of the
top-left block resolves to that block with `j = 2`. -/
theorem iwC10_right : rC10.intersecting_window 2 (-1/2) = some (wC10, 0, 2) := by
  rw [Raster.intersecting_window, bwC10]
  rw [List.find?]
  rw [show rC10.intersectsPt 2 (-1/2) wC10 = true from by
    simp only [Raster.intersectsPt, Raster.window_extent, rC10, wC10]
    norm_num]
  simp only [Option.map_some', Option.some.injEq, Prod.mk.injEq, Raster.window_extent,
    rC10, wC10]
  norm_num

/-- Helper: the point `(1/2, -2)` on the shared bottom boundary of the
top-left block resolves to that block with `i = 2`. -/
theorem iwC10_bottom : rC10.intersecting_window (1/2) (-2) = some (wC10, 2, 0) := by
  rw [Raster.intersecting_window, bwC10]
  rw [List.find?]
  rw [show rC10.intersectsPt (1/2) (-2) wC10 = true from by
    simp only [Raster.intersectsPt, Raster.window_extent, rC10, wC10]
    norm_num]
  simp only [Option.map_some', Option.some.injEq, Prod.mk.injEq, Raster.window_extent,
    rC10, wC10]
  norm_num

/-- C10 witness: on the 4×4 raster with 2×2 blocks, the boundary points
`(2, -1/2)` and `(1/2, -2)` of the first block produce `j = 2 = width` and
`i = 2 = height` respectively. -/
theorem intersecting_window_boundary_witness :
    ((2 : ℤ) = wC10.width ∧ ¬(2 : ℤ) < wC10.width)
      ∧ ((2 : ℤ) = wC10.height ∧ ¬(2 : ℤ) < wC10.height) :=
  ⟨(intersecting_window_boundary rC10 2 (-1/2) wC10 0 2 iwC10_right).1
      (by norm_num [rC10])
      (by simp only [Raster.window_extent, rC10, wC10]; norm_num),
    (intersecting_window_boundary rC10 (1/2) (-2) wC10 2 0 iwC10_bottom).2
      (by norm_num [rC10])
      (by simp only [Raster.window_extent, rC10, wC10]; norm_num)⟩

/-- C9 failing input.  `Raster.__exit__` evaluates `self.ds.close` without
calling it: for any raster whose dataset is open on exit, the dataset is
still open afterwards, and the whole handle is unchanged — the code never
closes the dataset, contradicting the lifecycle the spec states. -/
theorem raster_exit_leaves_dataset_open :
    (RasterHandle.exitCtx ⟨⟨true⟩⟩).ds.isOpen = true
      ∧ ∀ r : RasterHandle, r.exitCtx = r :=
  ⟨rfl, fun _ => rfl⟩

theorem round_mul_div (c : ℚ) (hc : c ≠ 0) (a : ℤ) :
    round (((a : ℚ) * c) / c) = a := by
  rw [mul_div_cancel_right₀ _ hc, round_intCast]

theorem round_sub_top (t c : ℚ) (hc : c ≠ 0) (a b : ℤ) :
    round ((t - (a : ℚ) * c - (t - (b : ℚ) * c)) / c) = b - a := by
  have h : t - (a : ℚ) * c - (t - (b : ℚ) * c) = ((b - a : ℤ) : ℚ) * c := by
    push_cast; ring
  rw [h, round_mul_div c hc]

theorem round_sub_left (t c : ℚ) (hc : c ≠ 0) (a b : ℤ) :
    round ((t + (a : ℚ) * c - (t + (b : ℚ) * c)) / c) = a - b := by
  have h : t + (a : ℚ) * c - (t + (b : ℚ) * c) = ((a - b : ℤ) : ℚ) * c := by
    push_cast; ring
  rw [h, round_mul_div c hc]

theorem max_top_aux (t c : ℚ) (hc : 0 < c) (a b : ℤ) :
    max (t - (a : ℚ) * c) (t - (b : ℚ) * c) = t - ((min a b : ℤ) : ℚ) * c := by
  rcases le_total a b with h | h
  · rw [min_eq_left h, max_eq_left
      (sub_le_sub_left (mul_le_mul_of_nonneg_right (by exact_mod_cast h) hc.le) t)]
  · rw [min_eq_right h, max_eq_right
      (sub_le_sub_left (mul_le_mul_of_nonneg_right (by exact_mod_cast h) hc.le) t)]

theorem min_bottom_aux (t c : ℚ) (hc : 0 < c) (a b : ℤ) :
    min (t - (a : ℚ) * c) (t - (b : ℚ) * c) = t - ((max a b : ℤ) : ℚ) * c := by
  rcases le_total a b with h | h
  · rw [max_eq_right h, min_eq_right
      (sub_le_sub_left (mul_le_mul_of_nonneg_right (by exact_mod_cast h) hc.le) t)]
  · rw [max_eq_left h, min_eq_left
      (sub_le_sub_left (mul_le_mul_of_nonneg_right (by exact_mod_cast h) hc.le) t)]

theorem min_left_aux (t c : ℚ) (hc : 0 < c) (a b : ℤ) :
    min (t + (a : ℚ) * c) (t + (b : ℚ) * c) = t + ((min a b : ℤ) : ℚ) * c := by
  rcases le_total a b with h | h
  · rw [min_eq_left h, min_eq_left
      (add_le_add_left (mul_le_mul_of_nonneg_right (by exact_mod_cast h) hc.le) t)]
  · rw [min_eq_right h, min_eq_right
      (add_le_add_left (mul_le_mul_of_nonneg_right (by exact_mod_cast h) hc.le) t)]

theorem max_right_aux (t c : ℚ) (hc : 0 < c) (a b : ℤ) :
    max (t + (a : ℚ) * c) (t + (b : ℚ) * c) = t + ((max a b : ℤ) : ℚ) * c := by
  rcases le_total a b with h | h
  · rw [max_eq_right h, max_eq_right
      (add_le_add_left (mul_le_mul_of_nonneg_right (by exact_mod_cast h) hc.le) t)]
  · rw [max_eq_left h, max_eq_left
      (add_le_add_left (mul_le_mul_of_nonneg_right (by exact_mod_cast h) hc.le) t)]

theorem lookupW_mem {α : Type} (l : List (Window × α)) (w : Window) (a : α)
    (h : lookupW l w = some a) : (w, a) ∈ l := by
  induction l with
  | nil => cases h
  | cons p rest ih =>
    obtain ⟨w', b⟩ := p
    rw [lookupW] at h
    split_ifs at h with he
    · obtain rfl := he
      obtain rfl : b = a := by
        simpa using h
      exact List.mem_cons_self _ _
    · exact List.mem_cons_of_mem _ (ih h)

theorem lookupW_translate (l : List (Window × Slices)) (dr dc : ℤ) (w : Window) :
    lookupW (l.map fun p =>
        (p.1, ((p.2.1.1 + dr, p.2.1.2 + dr), (p.2.2.1 + dc, p.2.2.2 + dc)))) w
      = (lookupW l w).map fun sl =>
          ((sl.1.1 + dr, sl.1.2 + dr), (sl.2.1 + dc, sl.2.2 + dc)) := by
  induction l with
  | nil => rfl
  | cons p rest ih =>
    obtain ⟨w', b⟩ := p
    simp only [List.map_cons, lookupW]
    split_ifs with he
    · rfl
    · exact ih

theorem foldl_copy_or (a : ℤ → ℤ → Bool) (toff loff r c : ℤ) :
    ∀ (l : List (Window × Slices)) (buf : ℤ → ℤ → Bool),
      (l.foldl (fun buf p => copySlice a toff loff buf p.2) buf) r c
          = a (r - toff) (c - loff)
        ∨ (l.foldl (fun buf p => copySlice a toff loff buf p.2) buf) r c = buf r c := by
  intro l
  induction l with
  | nil => intro buf; right; rfl
  | cons p rest ih =>
    intro buf
    rcases ih (copySlice a toff loff buf p.2) with h | h
    · left; exact h
    · by_cases hin : p.2.1.1 + toff ≤ r ∧ r < p.2.1.2 + toff
          ∧ p.2.2.1 + loff ≤ c ∧ c < p.2.2.2 + loff
      · left
        simp only [List.foldl_cons]
        rw [h]
        simp [copySlice, hin]
      · right
        simp only [List.foldl_cons]
        rw [h]
        simp [copySlice, hin]

theorem foldl_copy_hit (a : ℤ → ℤ → Bool) (toff loff r c : ℤ) (p₀ : Window × Slices)
    (hin : p₀.2.1.1 + toff ≤ r ∧ r < p₀.2.1.2 + toff
      ∧ p₀.2.2.1 + loff ≤ c ∧ c < p₀.2.2.2 + loff) :
    ∀ (l : List (Window × Slices)) (buf : ℤ → ℤ → Bool), p₀ ∈ l →
      (l.foldl (fun buf p => copySlice a toff loff buf p.2) buf) r c
        = a (r - toff) (c - loff) := by
  intro l
  induction l with
  | nil => intro buf h; cases h
  | cons p rest ih =>
    intro buf hp
    rcases List.mem_cons.mp hp with rfl | hmem
    · simp only [List.foldl_cons]
      rcases foldl_copy_or a toff loff r c rest (copySlice a toff loff buf p₀.2) with h | h
      · exact h
      · rw [h]
        simp [copySlice, hin]
    · simp only [List.foldl_cons]
      exact ih _ hmem

theorem add_window_registered (s : WindowAccumulator) (w : Window) (sl : Slices)
    (h : lookupW s.windows w = some sl) : s.add_window w = s := by
  simp [WindowAccumulator.add_window, h]

/-- One `add_window` call preserves the invariant, keeps every previously
registered window registered, and leaves every in-window cell of its view
unchanged. -/
theorem add_window_step (s : WindowAccumulator) (hInv : Inv s) (w : Window) :
    Inv (s.add_window w)
      ∧ ∀ (w₀ : Window) (sl₀ : Slices), lookupW s.windows w₀ = some sl₀ →
          (∃ sl', lookupW (s.add_window w).windows w₀ = some sl')
            ∧ ∀ r c : ℤ, 0 ≤ r → r < w₀.height → 0 ≤ c → c < w₀.width →
                (s.add_window w).view w₀ r c = s.view w₀ r c := by
  obtain ⟨T, B, L, R, hcsx, hcsy, hT, hB, hL, hR, hrows, hcols, hwin⟩ := hInv
  cases hnew : lookupW s.windows w with
  | some sl =>
    rw [add_window_registered s w sl hnew]
    exact ⟨⟨T, B, L, R, hcsx, hcsy, hT, hB, hL, hR, hrows, hcols, hwin⟩,
      fun w₀ sl₀ h₀ => ⟨⟨sl₀, h₀⟩, fun _ _ _ _ _ _ => rfl⟩⟩
  | none =>
    have hwindows : (s.add_window w).windows
        = (w, ((w.row_off - min T w.row_off, w.row_off + w.height - min T w.row_off),
               (w.col_off - min L w.col_off, w.col_off + w.width - min L w.col_off))) ::
          s.windows.map (fun p =>
            (p.1, ((p.2.1.1 + (T - min T w.row_off), p.2.1.2 + (T - min T w.row_off)),
                   (p.2.2.1 + (L - min L w.col_off), p.2.2.2 + (L - min L w.col_off))))) := by
      simp only [WindowAccumulator.add_window, hnew]
      rw [hT, hL]
      rw [show ((w.row_off : ℚ) + (w.height : ℚ)) = ((w.row_off + w.height : ℤ) : ℚ) by
        push_cast; ring]
      rw [show ((w.col_off : ℚ) + (w.width : ℚ)) = ((w.col_off + w.width : ℤ) : ℚ) by
        push_cast; ring]
      rw [max_top_aux s.top s.csy hcsy T w.row_off,
        min_left_aux s.left s.csx hcsx L w.col_off]
      simp only [round_sub_top s.top s.csy (ne_of_gt hcsy),
        round_sub_left s.left s.csx (ne_of_gt hcsx)]
    have ha : (s.add_window w).a
        = s.windows.foldl
            (fun buf p => copySlice s.a (T - min T w.row_off) (L - min L w.col_off) buf p.2)
            (fun _ _ => false) := by
      simp only [WindowAccumulator.add_window, hnew]
      rw [hT, hL]
      rw [max_top_aux s.top s.csy hcsy T w.row_off,
        min_left_aux s.left s.csx hcsx L w.col_off]
      simp only [round_sub_top s.top s.csy (ne_of_gt hcsy),
        round_sub_left s.left s.csx (ne_of_gt hcsx)]
    have htop : (s.add_window w).top = s.top := by
      simp only [WindowAccumulator.add_window, hnew]
    have hleft : (s.add_window w).left = s.left := by
      simp only [WindowAccumulator.add_window, hnew]
    have hcsx' : (s.add_window w).csx = s.csx := by
      simp only [WindowAccumulator.add_window, hnew]
    have hcsy' : (s.add_window w).csy = s.csy := by
      simp only [WindowAccumulator.add_window, hnew]
    have htopa : (s.add_window w).top_accum
        = s.top - ((min T w.row_off : ℤ) : ℚ) * s.csy := by
      simp only [WindowAccumulator.add_window, hnew]
      rw [hT, max_top_aux s.top s.csy hcsy T w.row_off]
    have hbota : (s.add_window w).bottom_accum
        = s.top - ((max B (w.row_off + w.height) : ℤ) : ℚ) * s.csy := by
      simp only [WindowAccumulator.add_window, hnew]
      rw [hB]
      rw [show ((w.row_off : ℚ) + (w.height : ℚ)) = ((w.row_off + w.height : ℤ) : ℚ) by
        push_cast; ring]
      rw [min_bottom_aux s.top s.csy hcsy B (w.row_off + w.height)]
    have hlefta : (s.add_window w).left_accum
        = s.left + ((min L w.col_off : ℤ) : ℚ) * s.csx := by
      simp only [WindowAccumulator.add_window, hnew]
      rw [hL, min_left_aux s.left s.csx hcsx L w.col_off]
    have hrighta : (s.add_window w).right_accum
        = s.left + ((max R (w.col_off + w.width) : ℤ) : ℚ) * s.csx := by
      simp only [WindowAccumulator.add_window, hnew]
      rw [hR]
      rw [show ((w.col_off : ℚ) + (w.width : ℚ)) = ((w.col_off + w.width : ℤ) : ℚ) by
        push_cast; ring]
      rw [max_right_aux s.left s.csx hcsx R (w.col_off + w.width)]
    have hrows' : (s.add_window w).rows
        = max B (w.row_off + w.height) - min T w.row_off := by
      simp only [WindowAccumulator.add_window, hnew]
      rw [hT, hB]
      rw [show ((w.row_off : ℚ) + (w.height : ℚ)) = ((w.row_off + w.height : ℤ) : ℚ) by
        push_cast; ring]
      rw [max_top_aux s.top s.csy hcsy T w.row_off,
        min_bottom_aux s.top s.csy hcsy B (w.row_off + w.height)]
      exact round_sub_top s.top s.csy (ne_of_gt hcsy) _ _
    have hcols' : (s.add_window w).cols
        = max R (w.col_off + w.width) - min L w.col_off := by
      simp only [WindowAccumulator.add_window, hnew]
      rw [hL, hR]
      rw [show ((w.col_off : ℚ) + (w.width : ℚ)) = ((w.col_off + w.width : ℤ) : ℚ) by
        push_cast; ring]
      rw [min_left_aux s.left s.csx hcsx L w.col_off,
        max_right_aux s.left s.csx hcsx R (w.col_off + w.width)]
      exact round_sub_left s.left s.csx (ne_of_gt hcsx) _ _
    constructor
    · -- the invariant for the grown accumulator
      refine ⟨min T w.row_off, max B (w.row_off + w.height),
        min L w.col_off, max R (w.col_off + w.width), ?_, ?_, ?_, ?_, ?_, ?_, ?_, ?_, ?_⟩
      · rw [hcsx']; exact hcsx
      · rw [hcsy']; exact hcsy
      · rw [htopa, htop, hcsy']
      · rw [hbota, htop, hcsy']
      · rw [hlefta, hleft, hcsx']
      · rw [hrighta, hleft, hcsx']
      · rw [hrows']
      · rw [hcols']
      · rw [hwindows]
        intro p hp
        rcases List.mem_cons.mp hp with rfl | hmem
        · refine ⟨rfl, ?_, ?_, ?_, ?_⟩ <;> (dsimp only; omega)
        · obtain ⟨q, hq, rfl⟩ := List.mem_map.mp hmem
          obtain ⟨hq2, hqb1, hqb2, hqb3, hqb4⟩ := hwin q hq
          rw [hq2]
          refine ⟨?_, ?_, ?_, ?_, ?_⟩
          · dsimp only
            simp only [Prod.mk.injEq]
            refine ⟨⟨?_, ?_⟩, ?_, ?_⟩ <;> omega
          · dsimp only; omega
          · dsimp only; omega
          · dsimp only; omega
          · dsimp only; omega
    · -- registered windows keep their views
      intro w₀ sl₀ h₀
      have hne : ¬w₀ = w := by
        intro he
        rw [he, hnew] at h₀
        cases h₀
      have hlook : lookupW (s.add_window w).windows w₀
          = some ((sl₀.1.1 + (T - min T w.row_off), sl₀.1.2 + (T - min T w.row_off)),
                  (sl₀.2.1 + (L - min L w.col_off), sl₀.2.2 + (L - min L w.col_off))) := by
        rw [hwindows, lookupW, if_neg hne, lookupW_translate, h₀]
        rfl
      refine ⟨⟨_, hlook⟩, fun r c hr hr' hc hc' => ?_⟩
      obtain ⟨hsl, hb1, hb2, hb3, hb4⟩ := hwin (w₀, sl₀) (lookupW_mem _ _ _ h₀)
      simp only [WindowAccumulator.view, hlook, h₀, ha]
      rw [foldl_copy_hit s.a (T - min T w.row_off) (L - min L w.col_off)
        (sl₀.1.1 + (T - min T w.row_off) + r) (sl₀.2.1 + (L - min L w.col_off) + c)
        (w₀, sl₀) ?_ s.windows _ (lookupW_mem _ _ _ h₀)]
      · congr 1 <;> omega
      · simp only at hsl
        refine ⟨?_, ?_, ?_, ?_⟩ <;>
          · rw [hsl]
            simp only
            omega



/-- C5.  For a well-formed `WindowAccumulator` (invariant `Inv`, which
`from_raster` establishes and `add_window` preserves) and any sequence of
`add_window` calls, every previously registered window `w₀` keeps its
contents: each in-window cell of `view w₀` is bitwise the same afterwards
as before; and `add_window` on an already-registered window returns the
state unchanged. -/
theorem window_accumulator_views_stable (s : WindowAccumulator) (hInv : Inv s)
    (ws : List Window) (w₀ : Window) (sl₀ : Slices)
    (h₀ : lookupW s.windows w₀ = some sl₀) (r c : ℤ)
    (hr : 0 ≤ r) (hr' : r < w₀.height) (hc : 0 ≤ c) (hc' : c < w₀.width) :
    (s.addWindows ws).view w₀ r c = s.view w₀ r c
      ∧ ∀ (w' : Window) (sl' : Slices), lookupW s.windows w' = some sl' →
          s.add_window w' = s := by
  constructor
  · induction ws generalizing s sl₀ with
    | nil => rfl
    | cons w rest ih =>
      obtain ⟨hInv', hreg⟩ := add_window_step s hInv w
      obtain ⟨⟨sl', hlk⟩, hview⟩ := hreg w₀ sl₀ h₀
      calc (s.addWindows (w :: rest)).view w₀ r c
          = ((s.add_window w).addWindows rest).view w₀ r c := rfl
        _ = (s.add_window w).view w₀ r c := ih (s.add_window w) hInv' sl' hlk
        _ = s.view w₀ r c := hview r c hr hr' hc hc'
  · exact fun w' sl' h' => add_window_registered s w' sl' h'

/-- Helper: the concrete accumulator `waC5` is well-formed. -/
theorem invC5 : Inv waC5 := by
  refine ⟨0, 2, 0, 2, ?_, ?_, ?_, ?_, ?_, ?_, ?_, ?_, ?_⟩
  · norm_num [waC5, WindowAccumulator.init]
  · norm_num [waC5, WindowAccumulator.init]
  · norm_num [waC5, WindowAccumulator.init]
  · norm_num [waC5, WindowAccumulator.init]
  · norm_num [waC5, WindowAccumulator.init]
  · norm_num [waC5, WindowAccumulator.init]
  · norm_num [waC5, WindowAccumulator.init]
  · norm_num [waC5, WindowAccumulator.init]
  · intro p hp
    simp only [waC5, WindowAccumulator.init, List.mem_singleton] at hp
    subst hp
    refine ⟨?_, ?_, ?_, ?_, ?_⟩ <;> decide

/-- C5 witness: on the concrete accumulator whose registered 2×2 window
holds a true cell at `(0, 1)`, adding the neighboring window `⟨0, 2, 2, 2⟩`
(which grows the buffer) preserves that view cell, and re-adding the
registered window itself is a no-op. -/
theorem window_accumulator_views_stable_witness :
    (waC5.addWindows [⟨0, 2, 2, 2⟩]).view ⟨0, 0, 2, 2⟩ 0 1
        = waC5.view ⟨0, 0, 2, 2⟩ 0 1
      ∧ waC5.add_window ⟨0, 0, 2, 2⟩ = waC5 :=
  ⟨(window_accumulator_views_stable waC5 invC5 [⟨0, 2, 2, 2⟩] ⟨0, 0, 2, 2⟩
      ((0, 2), (0, 2)) (by decide) 0 1 (by decide) (by decide) (by decide) (by decide)).1,
    (window_accumulator_views_stable waC5 invC5 [] ⟨0, 0, 2, 2⟩ ((0, 2), (0, 2))
      (by decide) 0 1 (by decide) (by decide) (by decide) (by decide)).2
      ⟨0, 0, 2, 2⟩ ((0, 2), (0, 2)) (by decide)⟩

end FastWS

namespace FastWS

theorem foldl_visit_eq (f : ℤ → ℤ → ℤ) (H i j : ℤ) :
    ∀ (l : List (ℤ × ℤ)) (s : KState),
      l.foldl (visitNbr f H i j) s
        = ⟨(pushesOf f H i j l).reverse ++ s.stack,
           s.basin ++ pushesOf f H i j l,
           s.edges ++ (edgesOfPop H i j l).map Prod.snd,
           s.edge_directions ++ (edgesOfPop H i j l).map Prod.fst⟩ := by
  intro l
  induction l with
  | nil => intro s; simp [pushesOf, edgesOfPop]
  | cons o rest ih =>
    intro s
    rw [List.foldl_cons, ih]
    by_cases hE : i + o.1 < 0 ∨ j + o.2 < 0 ∨ i + o.1 = H ∨ j + o.2 = H
    · have h1 : kedgeTest H (i + o.1, j + o.2) = true := by
        simp [kedgeTest, hE]
      have h2 : kpushTest f H i j o = false := by
        simp [kpushTest, h1]
      simp only [visitNbr, if_pos hE, pushesOf, edgesOfPop, List.filter_cons, h1, h2,
        Bool.false_eq_true, if_false, if_true, List.map_cons]
      simp [List.append_assoc]
    · have h1 : kedgeTest H (i + o.1, j + o.2) = false := by
        simp only [kedgeTest, decide_eq_false_iff_not]
        exact hE
      by_cases hf : f (i + o.1) (j + o.2) ≤ 0
      · have h2 : kpushTest f H i j o = false := by
          simp [kpushTest, decide_eq_true_eq]
          omega
        simp only [visitNbr, if_neg hE, if_pos hf, pushesOf, edgesOfPop, List.filter_cons,
          h1, h2, Bool.false_eq_true, if_false]
      · by_cases hm : f (i + o.1) (j + o.2) = dirAt o.1 o.2
        · have h2 : kpushTest f H i j o = true := by
            simp [kpushTest, h1, hm]
            omega
          simp only [visitNbr, if_neg hE, if_neg hf, if_pos hm, pushesOf, edgesOfPop,
            List.filter_cons, h1, h2, Bool.false_eq_true, if_false, if_true, List.map_cons]
          simp [List.append_assoc]
        · have h2 : kpushTest f H i j o = false := by
            simp [kpushTest, hm]
          simp only [visitNbr, if_neg hE, if_neg hf, if_neg hm, pushesOf, edgesOfPop,
            List.filter_cons, h1, h2, Bool.false_eq_true, if_false]

end FastWS

namespace FastWS

theorem mem_pushesOf {f : ℤ → ℤ → ℤ} {H i j : ℤ} {l : List (ℤ × ℤ)} {x : ℤ × ℤ} :
    x ∈ pushesOf f H i j l
      ↔ ∃ o ∈ l, kpushTest f H i j o = true ∧ x = (i + o.1, j + o.2) := by
  simp only [pushesOf, List.mem_map, List.mem_filter]
  constructor
  · rintro ⟨o, ⟨ho, hp⟩, rfl⟩
    exact ⟨o, ho, hp, rfl⟩
  · rintro ⟨o, ho, hp, rfl⟩
    exact ⟨o, ⟨ho, hp⟩, rfl⟩

theorem mem_edgesOfPop {H i j : ℤ} {l : List (ℤ × ℤ)} {pr : ℤ × (ℤ × ℤ)} :
    pr ∈ edgesOfPop H i j l
      ↔ ∃ o ∈ l, kedgeTest H (i + o.1, j + o.2) = true
          ∧ pr = (dirAt o.1 o.2, (i + o.1, j + o.2)) := by
  simp only [edgesOfPop, List.mem_map, List.mem_filter]
  constructor
  · rintro ⟨o, ⟨ho, hp⟩, rfl⟩
    exact ⟨o, ho, hp, rfl⟩
  · rintro ⟨o, ho, hp, rfl⟩
    exact ⟨o, ⟨ho, hp⟩, rfl⟩

theorem kcontrib_iff_push {f : ℤ → ℤ → ℤ} {H i j : ℤ} {t : ℤ × ℤ} :
    kcontrib f H (i, j) t
      ↔ ∃ o ∈ nbrs, kpushTest f H i j o = true ∧ t = (i + o.1, j + o.2) := by
  simp only [kcontrib, kpushTest, kedgeTest, Bool.and_eq_true, Bool.not_eq_true',
    decide_eq_false_iff_not, decide_eq_true_eq]
  constructor
  · rintro ⟨o, ho, rfl, hb, hpos, hdir⟩
    exact ⟨o, ho, ⟨⟨hb, hpos⟩, hdir⟩, rfl⟩
  · rintro ⟨o, ho, ⟨⟨hb, hpos⟩, hdir⟩, rfl⟩
    exact ⟨o, ho, rfl, hb, hpos, hdir⟩

theorem delineateLoop_char (f : ℤ → ℤ → ℤ) (H : ℤ) (S₀ : List (ℤ × ℤ)) :
    ∀ (fuel : ℕ) (s out : KState),
      delineateLoop f H fuel s = some out →
      (∀ c ∈ s.stack, ∃ a ∈ S₀, Relation.ReflTransGen (kcontrib f H) a c) →
      (∀ t ∈ s.basin, ∃ a ∈ S₀, Relation.TransGen (kcontrib f H) a t) →
      (∀ pr ∈ s.edge_directions.zip s.edges,
        ∃ c o, (∃ a ∈ S₀, Relation.ReflTransGen (kcontrib f H) a c) ∧ o ∈ nbrs
          ∧ kedgeTest H (c.1 + o.1, c.2 + o.2) = true
          ∧ pr = (dirAt o.1 o.2, (c.1 + o.1, c.2 + o.2))) →
      s.edge_directions.length = s.edges.length →
      (∀ c, c ∈ S₀ ∨ c ∈ s.basin → c ∈ s.stack ∨
        ((∀ t, kcontrib f H c t → t ∈ s.basin)
          ∧ ∀ o ∈ nbrs, kedgeTest H (c.1 + o.1, c.2 + o.2) = true →
              (dirAt o.1 o.2, (c.1 + o.1, c.2 + o.2)) ∈ s.edge_directions.zip s.edges)) →
      ((∀ t ∈ out.basin, ∃ a ∈ S₀, Relation.TransGen (kcontrib f H) a t)
        ∧ (∀ pr ∈ out.edge_directions.zip out.edges,
            ∃ c o, (∃ a ∈ S₀, Relation.ReflTransGen (kcontrib f H) a c) ∧ o ∈ nbrs
              ∧ kedgeTest H (c.1 + o.1, c.2 + o.2) = true
              ∧ pr = (dirAt o.1 o.2, (c.1 + o.1, c.2 + o.2)))
        ∧ (∀ c, c ∈ S₀ ∨ c ∈ out.basin →
            (∀ t, kcontrib f H c t → t ∈ out.basin)
              ∧ ∀ o ∈ nbrs, kedgeTest H (c.1 + o.1, c.2 + o.2) = true →
                  (dirAt o.1 o.2, (c.1 + o.1, c.2 + o.2))
                    ∈ out.edge_directions.zip out.edges)) := by
  intro fuel
  induction fuel with
  | zero =>
    intro s out h
    exact absurd h (by simp [delineateLoop])
  | succ n ih =>
    intro s out h hstk hbsn hedg hlen hcmp
    cases hs : s.stack with
    | nil =>
      have hout : s = out := by
        simpa [delineateLoop, hs] using h
      subst hout
      refine ⟨hbsn, hedg, fun c hc => ?_⟩
      rcases hcmp c hc with hin | hdone
      · rw [hs] at hin
        cases hin
      · exact hdone
    | cons hd rest =>
      obtain ⟨i, j⟩ := hd
      have h' : delineateLoop f H n (nbrs.foldl (visitNbr f H i j) {s with stack := rest})
          = some out := by
        simpa [delineateLoop, hs] using h
      have hfe := foldl_visit_eq f H i j nbrs {s with stack := rest}
      set s' := nbrs.foldl (visitNbr f H i j) {s with stack := rest} with hsdef
      have hstack' : s'.stack = (pushesOf f H i j nbrs).reverse ++ rest := by
        rw [hfe]
      have hbasin' : s'.basin = s.basin ++ pushesOf f H i j nbrs := by
        rw [hfe]
      have hedges' : s'.edges = s.edges ++ (edgesOfPop H i j nbrs).map Prod.snd := by
        rw [hfe]
      have hdirs' : s'.edge_directions
          = s.edge_directions ++ (edgesOfPop H i j nbrs).map Prod.fst := by
        rw [hfe]
      have hzip' : s'.edge_directions.zip s'.edges
          = s.edge_directions.zip s.edges ++ edgesOfPop H i j nbrs := by
        rw [hdirs', hedges', List.zip_append hlen, List.zip_map']
        simp
      have hlen' : s'.edge_directions.length = s'.edges.length := by
        rw [hdirs', hedges']
        simp [hlen]
      have hpop : ∃ a ∈ S₀, Relation.ReflTransGen (kcontrib f H) a (i, j) :=
        hstk (i, j) (by rw [hs]; exact List.mem_cons_self _ _)
      have hpush_reach : ∀ x ∈ pushesOf f H i j nbrs,
          ∃ a ∈ S₀, Relation.TransGen (kcontrib f H) a x := by
        intro x hx
        obtain ⟨o, ho, hp, rfl⟩ := mem_pushesOf.mp hx
        obtain ⟨a, ha, hr⟩ := hpop
        exact ⟨a, ha, Relation.TransGen.tail' hr
          (kcontrib_iff_push.mpr ⟨o, ho, hp, rfl⟩)⟩
      refine ih s' out h' ?_ ?_ ?_ hlen' ?_
      · intro c hc
        rw [hstack'] at hc
        rcases List.mem_append.mp hc with hc | hc
        · obtain ⟨a, ha, htg⟩ := hpush_reach c (List.mem_reverse.mp hc)
          exact ⟨a, ha, htg.to_reflTransGen⟩
        · exact hstk c (by rw [hs]; exact List.mem_cons_of_mem _ hc)
      · intro t ht
        rw [hbasin'] at ht
        rcases List.mem_append.mp ht with ht | ht
        · exact hbsn t ht
        · exact hpush_reach t ht
      · intro pr hpr
        rw [hzip'] at hpr
        rcases List.mem_append.mp hpr with hpr | hpr
        · exact hedg pr hpr
        · obtain ⟨o, ho, hE, rfl⟩ := mem_edgesOfPop.mp hpr
          exact ⟨(i, j), o, hpop, ho, hE, rfl⟩
      · intro c hc
        have hsplit : (c ∈ S₀ ∨ c ∈ s.basin) ∨ c ∈ pushesOf f H i j nbrs := by
          rcases hc with hc | hc
          · exact Or.inl (Or.inl hc)
          · rw [hbasin'] at hc
            rcases List.mem_append.mp hc with hc | hc
            · exact Or.inl (Or.inr hc)
            · exact Or.inr hc
        rcases hsplit with hc' | hc'
        · rcases hcmp c hc' with hin | hdone
          · rw [hs] at hin
            rcases List.mem_cons.mp hin with rfl | hin
            · right
              constructor
              · intro t hct
                rw [hbasin']
                refine List.mem_append.mpr (Or.inr ?_)
                obtain ⟨o, ho, hp, rfl⟩ := kcontrib_iff_push.mp hct
                exact mem_pushesOf.mpr ⟨o, ho, hp, rfl⟩
              · intro o ho hE
                rw [hzip']
                refine List.mem_append.mpr (Or.inr ?_)
                exact mem_edgesOfPop.mpr ⟨o, ho, hE, rfl⟩
            · left
              rw [hstack']
              exact List.mem_append.mpr (Or.inr hin)
          · right
            obtain ⟨hd1, hd2⟩ := hdone
            constructor
            · intro t hct
              rw [hbasin']
              exact List.mem_append.mpr (Or.inl (hd1 t hct))
            · intro o ho hE
              rw [hzip']
              exact List.mem_append.mpr (Or.inl (hd2 o ho hE))
        · left
          rw [hstack']
          exact List.mem_append.mpr (Or.inl (List.mem_reverse.mpr hc'))

end FastWS

namespace FastWS

theorem delineate_task_char (f : ℤ → ℤ → ℤ) (H : ℤ) (S₀ : List (ℤ × ℤ)) (fuel : ℕ)
    (out : KState) (h : delineate_task f H S₀ fuel = some out) :
    (∀ t ∈ out.basin, ∃ a ∈ S₀, Relation.TransGen (kcontrib f H) a t)
      ∧ (∀ pr ∈ out.edge_directions.zip out.edges,
          ∃ c o, (∃ a ∈ S₀, Relation.ReflTransGen (kcontrib f H) a c) ∧ o ∈ nbrs
            ∧ kedgeTest H (c.1 + o.1, c.2 + o.2) = true
            ∧ pr = (dirAt o.1 o.2, (c.1 + o.1, c.2 + o.2)))
      ∧ (∀ c, c ∈ S₀ ∨ c ∈ out.basin →
          (∀ t, kcontrib f H c t → t ∈ out.basin)
            ∧ ∀ o ∈ nbrs, kedgeTest H (c.1 + o.1, c.2 + o.2) = true →
                (dirAt o.1 o.2, (c.1 + o.1, c.2 + o.2))
                  ∈ out.edge_directions.zip out.edges) := by
  refine delineateLoop_char f H S₀ fuel ⟨S₀.reverse, [], [], []⟩ out h ?_ ?_ ?_ rfl ?_
  · intro c hc
    exact ⟨c, List.mem_reverse.mp hc, Relation.ReflTransGen.refl⟩
  · intro t ht
    cases ht
  · intro pr hpr
    simp at hpr
  · intro c hc
    rcases hc with hc | hc
    · exact Or.inl (List.mem_reverse.mpr hc)
    · cases hc

theorem kernel_basin_mem (f : ℤ → ℤ → ℤ) (H : ℤ) (S₀ : List (ℤ × ℤ)) (fuel : ℕ)
    (out : KState) (h : delineate_task f H S₀ fuel = some out) (t : ℤ × ℤ) :
    t ∈ out.basin ↔ ∃ a ∈ S₀, Relation.TransGen (kcontrib f H) a t := by
  obtain ⟨h1, h2, h3⟩ := delineate_task_char f H S₀ fuel out h
  constructor
  · exact h1 t
  · rintro ⟨a, ha, htg⟩
    induction htg with
    | single hct => exact (h3 a (Or.inl ha)).1 _ hct
    | tail hTG hct ihh => exact (h3 _ (Or.inr ihh)).1 _ hct

theorem kernel_edges_mem (f : ℤ → ℤ → ℤ) (H : ℤ) (S₀ : List (ℤ × ℤ)) (fuel : ℕ)
    (out : KState) (h : delineate_task f H S₀ fuel = some out) (pr : ℤ × (ℤ × ℤ)) :
    pr ∈ out.edge_directions.zip out.edges
      ↔ ∃ c o, (∃ a ∈ S₀, Relation.ReflTransGen (kcontrib f H) a c) ∧ o ∈ nbrs
          ∧ kedgeTest H (c.1 + o.1, c.2 + o.2) = true
          ∧ pr = (dirAt o.1 o.2, (c.1 + o.1, c.2 + o.2)) := by
  obtain ⟨h1, h2, h3⟩ := delineate_task_char f H S₀ fuel out h
  constructor
  · exact h2 pr
  · rintro ⟨c, o, ⟨a, ha, hr⟩, ho, hE, rfl⟩
    have hc : c ∈ S₀ ∨ c ∈ out.basin := by
      rcases Relation.reflTransGen_iff_eq_or_transGen.mp hr with rfl | htg
      · exact Or.inl ha
      · exact Or.inr ((kernel_basin_mem f H S₀ fuel out h c).mpr ⟨a, ha, htg⟩)
    exact (h3 c hc).2 o ho hE

end FastWS

namespace FastWS

theorem find?_eq_some_unique {α : Type} (p : α → Bool) (l : List α) (a : α)
    (ha : a ∈ l) (hpa : p a = true) (huniq : ∀ x ∈ l, p x = true → x = a) :
    l.find? p = some a := by
  induction l with
  | nil => cases ha
  | cons x xs ih =>
    by_cases hx : p x = true
    · have hxa : x = a := huniq x (List.mem_cons_self _ _) hx
      subst hxa
      simp [List.find?_cons_of_pos _ hx]
    · rw [List.find?_cons_of_neg _ (by simpa using hx)]
      refine ih ?_ fun y hy hpy => huniq y (List.mem_cons_of_mem _ hy) hpy
      rcases List.mem_cons.mp ha with rfl | h
      · exact absurd hpa hx
      · exact h

theorem ediv_ceil_exact {n b : ℤ} (hb : 0 < b) : (n * b + b - 1) / b = n := by
  have h1 : n * b + b - 1 = (b - 1) + n * b := by ring
  rw [h1, Int.add_mul_ediv_right _ _ (ne_of_gt hb),
    Int.ediv_eq_zero_of_lt (by omega) (by omega), zero_add]

theorem mem_block_windows_iff (r : Raster) (b nr nc : ℤ) (hb : 0 < b)
    (hbh : r.blockH = b) (hbw : r.blockW = b)
    (hH : r.height = nr * b) (hW : r.width = nc * b)
    (hnr : 0 ≤ nr) (hnc : 0 ≤ nc) (w : Window) :
    w ∈ r.block_windows
      ↔ ∃ bi bj : ℤ, 0 ≤ bi ∧ bi < nr ∧ 0 ≤ bj ∧ bj < nc
          ∧ w = ⟨bi * b, bj * b, b, b⟩ := by
  have hrc : r.blockRowCount = nr.toNat := by
    rw [Raster.blockRowCount, hbh, hH, ediv_ceil_exact hb]
  have hcc : r.blockColCount = nc.toNat := by
    rw [Raster.blockColCount, hbw, hW, ediv_ceil_exact hb]
  rw [Raster.block_windows]
  constructor
  · intro hw
    obtain ⟨bi', hbi', hw2⟩ := List.mem_flatMap.mp hw
    obtain ⟨bj', hbj', hw3⟩ := List.mem_map.mp hw2
    rw [hrc, List.mem_range] at hbi'
    rw [hcc, List.mem_range] at hbj'
    have hbi2 : (bi' : ℤ) < nr := by omega
    have hbj2 : (bj' : ℤ) < nc := by omega
    refine ⟨(bi' : ℤ), (bj' : ℤ), Int.natCast_nonneg bi', hbi2,
      Int.natCast_nonneg bj', hbj2, ?_⟩
    rw [← hw3, hbh, hbw]
    have hmin1 : min b (r.height - (bi' : ℤ) * b) = b := by
      rw [hH]
      have h2 : (1 : ℤ) ≤ nr - bi' := by omega
      have h3 : b ≤ nr * b - (bi' : ℤ) * b := by nlinarith
      omega
    have hmin2 : min b (r.width - (bj' : ℤ) * b) = b := by
      rw [hW]
      have h2 : (1 : ℤ) ≤ nc - bj' := by omega
      have h3 : b ≤ nc * b - (bj' : ℤ) * b := by nlinarith
      omega
    rw [hmin1, hmin2]
  · rintro ⟨bi, bj, hbi0, hbi1, hbj0, hbj1, rfl⟩
    refine List.mem_flatMap.mpr ⟨bi.toNat, ?_, List.mem_map.mpr ⟨bj.toNat, ?_, ?_⟩⟩
    · rw [hrc, List.mem_range]
      omega
    · rw [hcc, List.mem_range]
      omega
    · have e1 : ((bi.toNat : ℤ)) = bi := Int.toNat_of_nonneg hbi0
      have e2 : ((bj.toNat : ℤ)) = bj := Int.toNat_of_nonneg hbj0
      rw [e1, e2, hbh, hbw]
      have hmin1 : min b (r.height - bi * b) = b := by
        rw [hH]
        have h2 : (1 : ℤ) ≤ nr - bi := by omega
        have h3 : b ≤ nr * b - bi * b := by nlinarith
        omega
      have hmin2 : min b (r.width - bj * b) = b := by
        rw [hW]
        have h2 : (1 : ℤ) ≤ nc - bj := by omega
        have h3 : b ≤ nc * b - bj * b := by nlinarith
        omega
      rw [hmin1, hmin2]

end FastWS

namespace FastWS

theorem intersectsPt_center (r : Raster) (hcsx : 0 < r.csx) (hcsy : 0 < r.csy)
    (gi gj : ℤ) (w : Window) :
    r.intersectsPt (r.left + gj * r.csx + r.csx / 2) (r.top - gi * r.csy - r.csy / 2) w
        = true
      ↔ (w.row_off ≤ gi ∧ gi < w.row_off + w.height
          ∧ w.col_off ≤ gj ∧ gj < w.col_off + w.width) := by
  simp only [Raster.intersectsPt, Raster.window_extent, Bool.and_eq_true,
    decide_eq_true_eq]
  constructor
  · rintro ⟨⟨⟨h1, h2⟩, h3⟩, h4⟩
    refine ⟨?_, ?_, ?_, ?_⟩
    · by_contra hcon
      have : (gi : ℚ) + 1 ≤ w.row_off := by exact_mod_cast by omega
      nlinarith
    · by_contra hcon
      have : ((w.row_off : ℚ) + w.height) ≤ gi := by exact_mod_cast by omega
      nlinarith
    · by_contra hcon
      have : (gj : ℚ) + 1 ≤ w.col_off := by exact_mod_cast by omega
      nlinarith
    · by_contra hcon
      have : ((w.col_off : ℚ) + w.width) ≤ gj := by exact_mod_cast by omega
      nlinarith
  · rintro ⟨h1, h2, h3, h4⟩
    have c1 : ((w.row_off : ℚ)) ≤ gi := by exact_mod_cast h1
    have c2 : (gi : ℚ) + 1 ≤ (w.row_off : ℚ) + w.height := by exact_mod_cast by omega
    have c3 : ((w.col_off : ℚ)) ≤ gj := by exact_mod_cast h3
    have c4 : (gj : ℚ) + 1 ≤ (w.col_off : ℚ) + w.width := by exact_mod_cast by omega
    refine ⟨⟨⟨?_, ?_⟩, ?_⟩, ?_⟩ <;> nlinarith

theorem floor_int_add_half (k : ℤ) : ⌊(k : ℚ) + 1 / 2⌋ = k := by
  rw [Int.floor_eq_iff]
  constructor <;> norm_num

end FastWS

namespace FastWS

theorem iw_cell_center (r : Raster) (b nr nc : ℤ) (hb : 0 < b)
    (hbh : r.blockH = b) (hbw : r.blockW = b)
    (hH : r.height = nr * b) (hW : r.width = nc * b)
    (hcsx : 0 < r.csx) (hcsy : 0 < r.csy)
    (gi gj bi bj : ℤ)
    (hbi1 : bi < nr) (hbj1 : bj < nc)
    (hgi0 : bi * b ≤ gi) (hgi1 : gi < bi * b + b)
    (hgj0 : bj * b ≤ gj) (hgj1 : gj < bj * b + b)
    (hbi0 : 0 ≤ bi) (hbj0 : 0 ≤ bj) :
    r.intersecting_window (r.left + gj * r.csx + r.csx / 2)
        (r.top - gi * r.csy - r.csy / 2)
      = some (⟨bi * b, bj * b, b, b⟩, gi - bi * b, gj - bj * b) := by
  have hnr : 0 ≤ nr := by omega
  have hnc : 0 ≤ nc := by omega
  have hfind : r.block_windows.find?
      (fun w => r.intersectsPt (r.left + gj * r.csx + r.csx / 2)
        (r.top - gi * r.csy - r.csy / 2) w) = some ⟨bi * b, bj * b, b, b⟩ := by
    apply find?_eq_some_unique
    · exact (mem_block_windows_iff r b nr nc hb hbh hbw hH hW hnr hnc _).mpr
        ⟨bi, bj, hbi0, hbi1, hbj0, hbj1, rfl⟩
    · exact (intersectsPt_center r hcsx hcsy gi gj _).mpr ⟨hgi0, hgi1, hgj0, hgj1⟩
    · intro w hw hpw
      obtain ⟨bi', bj', hbi0', hbi1', hbj0', hbj1', rfl⟩ :=
        (mem_block_windows_iff r b nr nc hb hbh hbw hH hW hnr hnc _).mp hw
      obtain ⟨k1, k2, k3, k4⟩ := (intersectsPt_center r hcsx hcsy gi gj _).mp hpw
      simp only at k1 k2 k3 k4 ⊢
      have e1 : bi' = bi := by
        have d1 : bi' * b < (bi + 1) * b := by
          have : bi' * b ≤ gi := k1
          nlinarith
        have d2 : bi * b < (bi' + 1) * b := by nlinarith
        have := (mul_lt_mul_right hb).mp d1
        have := (mul_lt_mul_right hb).mp d2
        omega
      have e2 : bj' = bj := by
        have d1 : bj' * b < (bj + 1) * b := by nlinarith
        have d2 : bj * b < (bj' + 1) * b := by nlinarith
        have := (mul_lt_mul_right hb).mp d1
        have := (mul_lt_mul_right hb).mp d2
        omega
      rw [e1, e2]
  rw [Raster.intersecting_window, hfind, Option.map_some']
  have hcy : r.csy ≠ 0 := ne_of_gt hcsy
  have hcx : r.csx ≠ 0 := ne_of_gt hcsx
  have e1 : ((r.window_extent ⟨bi * b, bj * b, b, b⟩).top
      - (r.top - (gi : ℚ) * r.csy - r.csy / 2)) / r.csy
        = ((gi - bi * b : ℤ) : ℚ) + 1 / 2 := by
    rw [Raster.window_extent]
    push_cast
    field_simp
    ring
  have e2 : ((r.left + (gj : ℚ) * r.csx + r.csx / 2)
      - (r.window_extent ⟨bi * b, bj * b, b, b⟩).left) / r.csx
        = ((gj - bj * b : ℤ) : ℚ) + 1 / 2 := by
    rw [Raster.window_extent]
    push_cast
    field_simp
    ring
  rw [e1, e2, floor_int_add_half, floor_int_add_half]

theorem iw_cell_center_none (r : Raster) (b nr nc : ℤ) (hb : 0 < b)
    (hbh : r.blockH = b) (hbw : r.blockW = b)
    (hH : r.height = nr * b) (hW : r.width = nc * b)
    (hcsx : 0 < r.csx) (hcsy : 0 < r.csy) (hnr : 0 ≤ nr) (hnc : 0 ≤ nc)
    (gi gj : ℤ)
    (hout : gi < 0 ∨ nr * b ≤ gi ∨ gj < 0 ∨ nc * b ≤ gj) :
    r.intersecting_window (r.left + gj * r.csx + r.csx / 2)
        (r.top - gi * r.csy - r.csy / 2) = none := by
  have hfind : r.block_windows.find?
      (fun w => r.intersectsPt (r.left + gj * r.csx + r.csx / 2)
        (r.top - gi * r.csy - r.csy / 2) w) = none := by
    rw [List.find?_eq_none]
    intro w hw hpw
    obtain ⟨bi, bj, hbi0, hbi1, hbj0, hbj1, rfl⟩ :=
      (mem_block_windows_iff r b nr nc hb hbh hbw hH hW hnr hnc _).mp hw
    obtain ⟨k1, k2, k3, k4⟩ := (intersectsPt_center r hcsx hcsy gi gj _).mp hpw
    simp only at k1 k2 k3 k4
    have d1 : (bi + 1) * b ≤ nr * b := by
      have : bi + 1 ≤ nr := by omega
      exact mul_le_mul_of_nonneg_right this (le_of_lt hb)
    have d2 : (bj + 1) * b ≤ nc * b := by
      have : bj + 1 ≤ nc := by omega
      exact mul_le_mul_of_nonneg_right this (le_of_lt hb)
    have p1 : 0 ≤ bi * b := mul_nonneg hbi0 (le_of_lt hb)
    have p2 : 0 ≤ bj * b := mul_nonneg hbj0 (le_of_lt hb)
    rcases hout with h1 | h1 | h1 | h1 <;> nlinarith
  rw [Raster.intersecting_window, hfind]
  rfl

end FastWS

namespace FastWS

theorem lookupW_setStack_self (st : List (Window × List (ℤ × ℤ))) (w : Window)
    (l : List (ℤ × ℤ)) : lookupW (setStack st w l) w = some l := by
  induction st with
  | nil => simp [setStack, lookupW]
  | cons p rest ih =>
    obtain ⟨w1, l1⟩ := p
    by_cases h : w = w1
    · subst h
      simp [setStack, lookupW]
    · simp [setStack, lookupW, h, ih]

theorem lookupW_setStack_other (st : List (Window × List (ℤ × ℤ))) (w w' : Window)
    (hne : w' ≠ w) (l : List (ℤ × ℤ)) :
    lookupW (setStack st w l) w' = lookupW st w' := by
  induction st with
  | nil => simp [setStack, lookupW, hne]
  | cons p rest ih =>
    obtain ⟨w1, l1⟩ := p
    by_cases h : w = w1
    · subst h
      simp [setStack, lookupW, hne]
    · by_cases h2 : w' = w1
      · subst h2
        simp [setStack, lookupW, h]
      · simp [setStack, lookupW, h, h2, ih]

theorem getStack_setStack_self (st : List (Window × List (ℤ × ℤ))) (w : Window)
    (l : List (ℤ × ℤ)) : getStack (setStack st w l) w = l := by
  rw [getStack, lookupW_setStack_self]

theorem getStack_setStack_other (st : List (Window × List (ℤ × ℤ))) (w w' : Window)
    (hne : w' ≠ w) (l : List (ℤ × ℤ)) :
    getStack (setStack st w l) w' = getStack st w' := by
  rw [getStack, lookupW_setStack_other st w w' hne, getStack]

theorem mem_setStack {st : List (Window × List (ℤ × ℤ))} {w : Window}
    {l : List (ℤ × ℤ)} {p : Window × List (ℤ × ℤ)}
    (h : p ∈ setStack st w l) : p = (w, l) ∨ p ∈ st := by
  induction st with
  | nil => simpa [setStack] using h
  | cons q rest ih =>
    obtain ⟨w1, l1⟩ := q
    by_cases hw : w = w1
    · subst hw
      rw [setStack, if_pos rfl] at h
      rcases List.mem_cons.mp h with rfl | h
      · exact Or.inl rfl
      · exact Or.inr (List.mem_cons_of_mem _ h)
    · rw [setStack, if_neg hw] at h
      rcases List.mem_cons.mp h with rfl | h
      · exact Or.inr (List.mem_cons_self _ _)
      · rcases ih h with h | h
        · exact Or.inl h
        · exact Or.inr (List.mem_cons_of_mem _ h)

theorem getStack_mem {st : List (Window × List (ℤ × ℤ))} {w : Window} {c : ℤ × ℤ}
    (h : c ∈ getStack st w) : ∃ l, (w, l) ∈ st ∧ c ∈ l := by
  rw [getStack] at h
  cases hl : lookupW st w with
  | none => rw [hl] at h; cases h
  | some l => rw [hl] at h; exact ⟨l, lookupW_mem _ _ _ hl, h⟩

theorem pb_marks_mono (fd : Raster) (w : Window) (st : DelinState)
    (bucket : List (ℤ × ℤ × ℤ)) (g : ℤ × ℤ) (hg : g ∈ st.marks) :
    g ∈ (processBucket fd w st bucket).marks := by
  rcases bucket with _ | ⟨⟨d, ei, ej⟩, rest⟩
  · exact hg
  · rw [processBucket]
    cases fd.intersecting_window (fd.xy_from_window_index ei ej w).1
        (fd.xy_from_window_index ei ej w).2 with
    | none => exact hg
    | some t =>
      obtain ⟨w', i', j'⟩ := t
      exact Finset.mem_union_left _ hg

theorem pb_stack_mono (fd : Raster) (w : Window) (st : DelinState)
    (bucket : List (ℤ × ℤ × ℤ)) (wq : Window) (c : ℤ × ℤ)
    (hc : c ∈ getStack st.stack wq) :
    c ∈ getStack (processBucket fd w st bucket).stack wq := by
  rcases bucket with _ | ⟨⟨d, ei, ej⟩, rest⟩
  · exact hc
  · rw [processBucket]
    cases fd.intersecting_window (fd.xy_from_window_index ei ej w).1
        (fd.xy_from_window_index ei ej w).2 with
    | none => exact hc
    | some t =>
      obtain ⟨w', i', j'⟩ := t
      simp only
      by_cases hq : wq = w'
      · subst hq
        rw [getStack_setStack_self]
        exact List.mem_append_left _ hc
      · rw [getStack_setStack_other _ _ _ hq]
        exact hc

theorem foldl_pb_marks_mono (fd : Raster) (w : Window)
    (bl : List (List (ℤ × ℤ × ℤ))) :
    ∀ (st : DelinState) (g : ℤ × ℤ), g ∈ st.marks →
      g ∈ (bl.foldl (processBucket fd w) st).marks := by
  induction bl with
  | nil => intro st g hg; exact hg
  | cons bkt rest ih =>
    intro st g hg
    exact ih _ _ (pb_marks_mono fd w st bkt g hg)

theorem foldl_pb_stack_mono (fd : Raster) (w : Window)
    (bl : List (List (ℤ × ℤ × ℤ))) :
    ∀ (st : DelinState) (wq : Window) (c : ℤ × ℤ), c ∈ getStack st.stack wq →
      c ∈ getStack ((bl.foldl (processBucket fd w) st).stack) wq := by
  induction bl with
  | nil => intro st wq c hc; exact hc
  | cons bkt rest ih =>
    intro st wq c hc
    exact ih _ _ _ (pb_stack_mono fd w st bkt wq c hc)

theorem nbrs_bound : ∀ o ∈ nbrs, -1 ≤ o.1 ∧ o.1 ≤ 1 ∧ -1 ≤ o.2 ∧ o.2 ≤ 1 := by
  decide

theorem reach_in_window {f : ℤ → ℤ → ℤ} {b : ℤ} {c t : ℤ × ℤ}
    (h : Relation.ReflTransGen (kcontrib f b) c t)
    (hc : 0 ≤ c.1 ∧ c.1 < b ∧ 0 ≤ c.2 ∧ c.2 < b) :
    0 ≤ t.1 ∧ t.1 < b ∧ 0 ≤ t.2 ∧ t.2 < b := by
  induction h with
  | refl => exact hc
  | tail hr hct ih =>
    obtain ⟨o, ho, rfl, hbnd, -, -⟩ := hct
    obtain ⟨o1, o2, o3, o4⟩ := nbrs_bound o ho
    push_neg at hbnd
    dsimp only
    omega

theorem contrib_eq_kcontrib (fd : Raster) (b : ℤ) (w : Window) :
    contrib fd b w = kcontrib (fd.fdWin w) b := rfl

end FastWS

namespace FastWS

theorem xy_center (r : Raster) (bi bj b ei ej : ℤ) :
    r.xy_from_window_index ei ej ⟨bi * b, bj * b, b, b⟩
      = (r.left + ((bj * b + ej : ℤ) : ℚ) * r.csx + r.csx / 2,
         r.top - ((bi * b + ei : ℤ) : ℚ) * r.csy - r.csy / 2) := by
  rw [Raster.xy_from_window_index, Raster.window_extent]
  simp only [Prod.mk.injEq]
  constructor <;> (push_cast; ring)

theorem pb_resolution (fd : Raster) (b nr nc bi bj ei ej di dj : ℤ) (hb : 0 < b)
    (hbh : fd.blockH = b) (hbw : fd.blockW = b)
    (hH : fd.height = nr * b) (hW : fd.width = nc * b)
    (hcsx : 0 < fd.csx) (hcsy : 0 < fd.csy)
    (hei0 : di * b ≤ ei) (hei1 : ei < di * b + b)
    (hej0 : dj * b ≤ ej) (hej1 : ej < dj * b + b)
    (hbi0 : 0 ≤ bi + di) (hbi1 : bi + di < nr)
    (hbj0 : 0 ≤ bj + dj) (hbj1 : bj + dj < nc) :
    fd.intersecting_window (fd.xy_from_window_index ei ej ⟨bi * b, bj * b, b, b⟩).1
        (fd.xy_from_window_index ei ej ⟨bi * b, bj * b, b, b⟩).2
      = some (⟨(bi + di) * b, (bj + dj) * b, b, b⟩, ei - di * b, ej - dj * b) := by
  rw [xy_center]
  simp only
  have h1 : (bi + di) * b ≤ bi * b + ei := by nlinarith
  have h2 : bi * b + ei < (bi + di) * b + b := by nlinarith
  have h3 : (bj + dj) * b ≤ bj * b + ej := by nlinarith
  have h4 : bj * b + ej < (bj + dj) * b + b := by nlinarith
  rw [iw_cell_center fd b nr nc hb hbh hbw hH hW hcsx hcsy (bi * b + ei) (bj * b + ej)
    (bi + di) (bj + dj) hbi1 hbj1 h1 h2 h3 h4 hbi0 hbj0]
  have e1 : bi * b + ei - (bi + di) * b = ei - di * b := by ring
  have e2 : bj * b + ej - (bj + dj) * b = ej - dj * b := by ring
  rw [e1, e2]

theorem pb_resolution_none (fd : Raster) (b nr nc bi bj ei ej di dj : ℤ) (hb : 0 < b)
    (hbh : fd.blockH = b) (hbw : fd.blockW = b)
    (hH : fd.height = nr * b) (hW : fd.width = nc * b)
    (hcsx : 0 < fd.csx) (hcsy : 0 < fd.csy) (hnr : 0 ≤ nr) (hnc : 0 ≤ nc)
    (hei0 : di * b ≤ ei) (hei1 : ei < di * b + b)
    (hej0 : dj * b ≤ ej) (hej1 : ej < dj * b + b)
    (hout : ¬(0 ≤ bi + di ∧ bi + di < nr ∧ 0 ≤ bj + dj ∧ bj + dj < nc)) :
    fd.intersecting_window (fd.xy_from_window_index ei ej ⟨bi * b, bj * b, b, b⟩).1
        (fd.xy_from_window_index ei ej ⟨bi * b, bj * b, b, b⟩).2 = none := by
  rw [xy_center]
  simp only
  apply iw_cell_center_none fd b nr nc hb hbh hbw hH hW hcsx hcsy hnr hnc
  push_neg at hout
  by_cases c1 : bi + di < 0
  · left
    nlinarith
  · by_cases c2 : nr ≤ bi + di
    · right; left
      nlinarith
    · by_cases c3 : bj + dj < 0
      · right; right; left
        nlinarith
      · right; right; right
        have c4 : nc ≤ bj + dj := hout (by omega) (by omega) (by omega)
        nlinarith

end FastWS

namespace FastWS

theorem processBucket_offRaster (fd : Raster) (b nr nc bi bj di dj : ℤ) (hb : 0 < b)
    (hbh : fd.blockH = b) (hbw : fd.blockW = b)
    (hH : fd.height = nr * b) (hW : fd.width = nc * b)
    (hcsx : 0 < fd.csx) (hcsy : 0 < fd.csy) (hnr : 0 ≤ nr) (hnc : 0 ≤ nc)
    (st : DelinState) (bucket : List (ℤ × ℤ × ℤ))
    (hcoh : ∀ e ∈ bucket, di * b ≤ e.2.1 ∧ e.2.1 < di * b + b
      ∧ dj * b ≤ e.2.2 ∧ e.2.2 < dj * b + b)
    (hout : ¬(0 ≤ bi + di ∧ bi + di < nr ∧ 0 ≤ bj + dj ∧ bj + dj < nc)) :
    processBucket fd ⟨bi * b, bj * b, b, b⟩ st bucket = st := by
  rcases bucket with _ | ⟨⟨d0, ei, ej⟩, rest⟩
  · rfl
  · have hhead := hcoh (d0, ei, ej) (List.mem_cons_self _ _)
    simp only at hhead
    rw [processBucket,
      pb_resolution_none fd b nr nc bi bj ei ej di dj hb hbh hbw hH hW hcsx hcsy hnr hnc
        hhead.1 hhead.2.1 hhead.2.2.1 hhead.2.2.2 hout]

theorem processBucket_onRaster (fd : Raster) (b nr nc bi bj di dj : ℤ) (hb : 0 < b)
    (hbh : fd.blockH = b) (hbw : fd.blockW = b)
    (hH : fd.height = nr * b) (hW : fd.width = nc * b)
    (hcsx : 0 < fd.csx) (hcsy : 0 < fd.csy)
    (hbi0 : 0 ≤ bi + di) (hbi1 : bi + di < nr)
    (hbj0 : 0 ≤ bj + dj) (hbj1 : bj + dj < nc)
    (st : DelinState) (d0 ei ej : ℤ) (rest : List (ℤ × ℤ × ℤ))
    (hcoh : ∀ e ∈ (d0, ei, ej) :: rest, di * b ≤ e.2.1 ∧ e.2.1 < di * b + b
      ∧ dj * b ≤ e.2.2 ∧ e.2.2 < dj * b + b) :
    processBucket fd ⟨bi * b, bj * b, b, b⟩ st ((d0, ei, ej) :: rest)
      = { stack := setStack st.stack ⟨(bi + di) * b, (bj + dj) * b, b, b⟩
            (getStack st.stack ⟨(bi + di) * b, (bj + dj) * b, b, b⟩
              ++ ((((d0, ei, ej) :: rest).filter fun e =>
                    decide (fd.data (bi * b + e.2.1) (bj * b + e.2.2) = e.1)).map
                    fun e => (e.2.1 - di * b, e.2.2 - dj * b))),
          marks := st.marks
            ∪ ((((d0, ei, ej) :: rest).filter fun e =>
                  decide (fd.data (bi * b + e.2.1) (bj * b + e.2.2) = e.1)).map
                 fun e => (bi * b + e.2.1, bj * b + e.2.2)).toFinset } := by
  have hhead := hcoh (d0, ei, ej) (List.mem_cons_self _ _)
  simp only at hhead
  rw [processBucket,
    pb_resolution fd b nr nc bi bj ei ej di dj hb hbh hbw hH hW hcsx hcsy
      hhead.1 hhead.2.1 hhead.2.2.1 hhead.2.2.2 hbi0 hbi1 hbj0 hbj1]
  have hmap : (fun (e : ℤ × ℤ × ℤ) =>
        (e.1, e.2.1 + (ei - di * b - ei), e.2.2 + (ej - dj * b - ej)))
      = fun (e : ℤ × ℤ × ℤ) => (e.1, e.2.1 - di * b, e.2.2 - dj * b) := by
    funext e
    simp only [Prod.mk.injEq]
    refine ⟨trivial, by ring, by ring⟩
  dsimp only
  rw [hmap]
  rw [List.filter_map]
  have hfil : ((fun (e' : ℤ × ℤ × ℤ) =>
        decide (fd.readCell ⟨(bi + di) * b, (bj + dj) * b, b, b⟩ e'.2.1 e'.2.2 = e'.1))
          ∘ (fun (e : ℤ × ℤ × ℤ) => (e.1, e.2.1 - di * b, e.2.2 - dj * b)))
      = fun (e : ℤ × ℤ × ℤ) =>
          decide (fd.data (bi * b + e.2.1) (bj * b + e.2.2) = e.1) := by
    funext e
    simp only [Function.comp_apply, Raster.readCell]
    have r1 : (bi + di) * b + (e.2.1 - di * b) = bi * b + e.2.1 := by ring
    have r2 : (bj + dj) * b + (e.2.2 - dj * b) = bj * b + e.2.2 := by ring
    simp only [r1, r2]
  rw [hfil, List.map_map, List.map_map]
  have hg1 : ((fun (e : ℤ × ℤ × ℤ) => (e.2.1, e.2.2))
        ∘ (fun (e : ℤ × ℤ × ℤ) => (e.1, e.2.1 - di * b, e.2.2 - dj * b)))
      = fun (e : ℤ × ℤ × ℤ) => (e.2.1 - di * b, e.2.2 - dj * b) := by
    funext e
    rfl
  have hg2 : ((fun (e : ℤ × ℤ × ℤ) =>
        glob ⟨(bi + di) * b, (bj + dj) * b, b, b⟩ (e.2.1, e.2.2))
          ∘ (fun (e : ℤ × ℤ × ℤ) => (e.1, e.2.1 - di * b, e.2.2 - dj * b)))
      = fun (e : ℤ × ℤ × ℤ) => (bi * b + e.2.1, bj * b + e.2.2) := by
    funext e
    simp only [Function.comp_apply, glob, Prod.mk.injEq]
    exact ⟨by ring, by ring⟩
  rw [hg1, hg2]

end FastWS

namespace FastWS

theorem bucket_sub {H W : ℤ} {rows bucket : List (ℤ × ℤ × ℤ)}
    (hm : bucket ∈ bucketList H W rows) : ∀ e ∈ bucket, e ∈ rows := by
  intro e he
  simp only [bucketList, List.mem_cons, List.not_mem_nil, or_false] at hm
  rcases hm with rfl | rfl | rfl | rfl | rfl | rfl | rfl | rfl <;>
    exact List.mem_of_mem_filter he

theorem bucket_coherent {b : ℤ} (hb : 0 < b) {rows bucket : List (ℤ × ℤ × ℤ)}
    (hshape : ∀ pr ∈ rows, -1 ≤ pr.2.1 ∧ pr.2.1 ≤ b ∧ -1 ≤ pr.2.2 ∧ pr.2.2 ≤ b)
    (hm : bucket ∈ bucketList b b rows) :
    ∃ di dj : ℤ, ∀ e ∈ bucket,
      di * b ≤ e.2.1 ∧ e.2.1 < di * b + b ∧ dj * b ≤ e.2.2 ∧ e.2.2 < dj * b + b := by
  simp only [bucketList, List.mem_cons, List.not_mem_nil, or_false] at hm
  rcases hm with rfl | rfl | rfl | rfl | rfl | rfl | rfl | rfl
  · refine ⟨-1, 0, fun e he => ?_⟩
    obtain ⟨hrows, hpred⟩ := List.mem_filter.mp he
    obtain ⟨s1, s2, s3, s4⟩ := hshape e hrows
    simp only [topSlice, bottomSlice, leftSlice, rightSlice, Bool.and_eq_true,
      Bool.not_eq_true', decide_eq_true_eq, decide_eq_false_iff_not] at hpred
    refine ⟨by omega, by omega, by omega, by omega⟩
  · refine ⟨1, 0, fun e he => ?_⟩
    obtain ⟨hrows, hpred⟩ := List.mem_filter.mp he
    obtain ⟨s1, s2, s3, s4⟩ := hshape e hrows
    simp only [topSlice, bottomSlice, leftSlice, rightSlice, Bool.and_eq_true,
      Bool.not_eq_true', decide_eq_true_eq, decide_eq_false_iff_not] at hpred
    refine ⟨by omega, by omega, by omega, by omega⟩
  · refine ⟨0, -1, fun e he => ?_⟩
    obtain ⟨hrows, hpred⟩ := List.mem_filter.mp he
    obtain ⟨s1, s2, s3, s4⟩ := hshape e hrows
    simp only [topSlice, bottomSlice, leftSlice, rightSlice, Bool.and_eq_true,
      Bool.not_eq_true', decide_eq_true_eq, decide_eq_false_iff_not] at hpred
    refine ⟨by omega, by omega, by omega, by omega⟩
  · refine ⟨0, 1, fun e he => ?_⟩
    obtain ⟨hrows, hpred⟩ := List.mem_filter.mp he
    obtain ⟨s1, s2, s3, s4⟩ := hshape e hrows
    simp only [topSlice, bottomSlice, leftSlice, rightSlice, Bool.and_eq_true,
      Bool.not_eq_true', decide_eq_true_eq, decide_eq_false_iff_not] at hpred
    refine ⟨by omega, by omega, by omega, by omega⟩
  · refine ⟨-1, -1, fun e he => ?_⟩
    obtain ⟨hrows, hpred⟩ := List.mem_filter.mp he
    obtain ⟨s1, s2, s3, s4⟩ := hshape e hrows
    simp only [topSlice, bottomSlice, leftSlice, rightSlice, Bool.and_eq_true,
      Bool.not_eq_true', decide_eq_true_eq, decide_eq_false_iff_not] at hpred
    refine ⟨by omega, by omega, by omega, by omega⟩
  · refine ⟨-1, 1, fun e he => ?_⟩
    obtain ⟨hrows, hpred⟩ := List.mem_filter.mp he
    obtain ⟨s1, s2, s3, s4⟩ := hshape e hrows
    simp only [topSlice, bottomSlice, leftSlice, rightSlice, Bool.and_eq_true,
      Bool.not_eq_true', decide_eq_true_eq, decide_eq_false_iff_not] at hpred
    refine ⟨by omega, by omega, by omega, by omega⟩
  · refine ⟨1, -1, fun e he => ?_⟩
    obtain ⟨hrows, hpred⟩ := List.mem_filter.mp he
    obtain ⟨s1, s2, s3, s4⟩ := hshape e hrows
    simp only [topSlice, bottomSlice, leftSlice, rightSlice, Bool.and_eq_true,
      Bool.not_eq_true', decide_eq_true_eq, decide_eq_false_iff_not] at hpred
    refine ⟨by omega, by omega, by omega, by omega⟩
  · refine ⟨1, 1, fun e he => ?_⟩
    obtain ⟨hrows, hpred⟩ := List.mem_filter.mp he
    obtain ⟨s1, s2, s3, s4⟩ := hshape e hrows
    simp only [topSlice, bottomSlice, leftSlice, rightSlice, Bool.and_eq_true,
      Bool.not_eq_true', decide_eq_true_eq, decide_eq_false_iff_not] at hpred
    refine ⟨by omega, by omega, by omega, by omega⟩

theorem bucket_cover {b : ℤ} {rows : List (ℤ × ℤ × ℤ)} {pr : ℤ × ℤ × ℤ}
    (_hb : 0 < b) (hpr : pr ∈ rows)
    (h1 : -1 ≤ pr.2.1) (h2 : pr.2.1 ≤ b) (h3 : -1 ≤ pr.2.2) (h4 : pr.2.2 ≤ b)
    (hex : pr.2.1 < 0 ∨ pr.2.2 < 0 ∨ pr.2.1 = b ∨ pr.2.2 = b) :
    ∃ bucket ∈ bucketList b b rows, pr ∈ bucket := by
  by_cases c1 : pr.2.1 < 0
  · by_cases c2 : pr.2.2 < 0
    · refine ⟨rows.filter (fun e => topSlice e && leftSlice e), by simp [bucketList],
        List.mem_filter.mpr ⟨hpr, ?_⟩⟩
      simp only [topSlice, bottomSlice, leftSlice, rightSlice, Bool.and_eq_true,
        Bool.not_eq_true', decide_eq_true_eq, decide_eq_false_iff_not]
      omega
    · by_cases c3 : pr.2.2 = b
      · refine ⟨rows.filter (fun e => topSlice e && rightSlice b e),
          by simp [bucketList], List.mem_filter.mpr ⟨hpr, ?_⟩⟩
        simp only [topSlice, bottomSlice, leftSlice, rightSlice, Bool.and_eq_true,
          Bool.not_eq_true', decide_eq_true_eq, decide_eq_false_iff_not]
        omega
      · refine ⟨rows.filter (fun e => topSlice e && !leftSlice e && !rightSlice b e),
          by simp [bucketList], List.mem_filter.mpr ⟨hpr, ?_⟩⟩
        simp only [topSlice, bottomSlice, leftSlice, rightSlice, Bool.and_eq_true,
          Bool.not_eq_true', decide_eq_true_eq, decide_eq_false_iff_not]
        omega
  · by_cases c4 : pr.2.1 = b
    · by_cases c2 : pr.2.2 < 0
      · refine ⟨rows.filter (fun e => bottomSlice b e && leftSlice e),
          by simp [bucketList], List.mem_filter.mpr ⟨hpr, ?_⟩⟩
        simp only [topSlice, bottomSlice, leftSlice, rightSlice, Bool.and_eq_true,
          Bool.not_eq_true', decide_eq_true_eq, decide_eq_false_iff_not]
        omega
      · by_cases c3 : pr.2.2 = b
        · refine ⟨rows.filter (fun e => bottomSlice b e && rightSlice b e),
            by simp [bucketList], List.mem_filter.mpr ⟨hpr, ?_⟩⟩
          simp only [topSlice, bottomSlice, leftSlice, rightSlice, Bool.and_eq_true,
            Bool.not_eq_true', decide_eq_true_eq, decide_eq_false_iff_not]
          omega
        · refine ⟨rows.filter
              (fun e => bottomSlice b e && !leftSlice e && !rightSlice b e),
            by simp [bucketList], List.mem_filter.mpr ⟨hpr, ?_⟩⟩
          simp only [topSlice, bottomSlice, leftSlice, rightSlice, Bool.and_eq_true,
            Bool.not_eq_true', decide_eq_true_eq, decide_eq_false_iff_not]
          omega
    · by_cases c2 : pr.2.2 < 0
      · refine ⟨rows.filter (fun e => leftSlice e && !topSlice e && !bottomSlice b e),
          by simp [bucketList], List.mem_filter.mpr ⟨hpr, ?_⟩⟩
        simp only [topSlice, bottomSlice, leftSlice, rightSlice, Bool.and_eq_true,
          Bool.not_eq_true', decide_eq_true_eq, decide_eq_false_iff_not]
        omega
      · have c3 : pr.2.2 = b := by omega
        refine ⟨rows.filter (fun e => rightSlice b e && !topSlice e && !bottomSlice b e),
          by simp [bucketList], List.mem_filter.mpr ⟨hpr, ?_⟩⟩
        simp only [topSlice, bottomSlice, leftSlice, rightSlice, Bool.and_eq_true,
          Bool.not_eq_true', decide_eq_true_eq, decide_eq_false_iff_not]
        omega

end FastWS

namespace FastWS

theorem foldl_pb_add (fd : Raster) (b nr nc bi bj di dj : ℤ) (hb : 0 < b)
    (hbh : fd.blockH = b) (hbw : fd.blockW = b)
    (hH : fd.height = nr * b) (hW : fd.width = nc * b)
    (hcsx : 0 < fd.csx) (hcsy : 0 < fd.csy)
    (hbi0 : 0 ≤ bi + di) (hbi1 : bi + di < nr)
    (hbj0 : 0 ≤ bj + dj) (hbj1 : bj + dj < nc)
    (bl : List (List (ℤ × ℤ × ℤ))) (bucket : List (ℤ × ℤ × ℤ)) (hmem : bucket ∈ bl)
    (hcoh : ∀ e ∈ bucket, di * b ≤ e.2.1 ∧ e.2.1 < di * b + b
      ∧ dj * b ≤ e.2.2 ∧ e.2.2 < dj * b + b)
    (e : ℤ × ℤ × ℤ) (he : e ∈ bucket)
    (hver : fd.data (bi * b + e.2.1) (bj * b + e.2.2) = e.1)
    (st : DelinState) :
    (e.2.1 - di * b, e.2.2 - dj * b)
        ∈ getStack ((bl.foldl (processBucket fd ⟨bi * b, bj * b, b, b⟩) st).stack)
            ⟨(bi + di) * b, (bj + dj) * b, b, b⟩
      ∧ (bi * b + e.2.1, bj * b + e.2.2)
          ∈ (bl.foldl (processBucket fd ⟨bi * b, bj * b, b, b⟩) st).marks := by
  obtain ⟨l₁, l₂, rfl⟩ := List.append_of_mem hmem
  rw [List.foldl_append, List.foldl_cons]
  rcases hbk : bucket with _ | ⟨⟨d0, ei, ej⟩, rest⟩
  · subst hbk; cases he
  · subst hbk
    rw [processBucket_onRaster fd b nr nc bi bj di dj hb hbh hbw hH hW hcsx hcsy
      hbi0 hbi1 hbj0 hbj1 _ d0 ei ej rest hcoh]
    constructor
    · apply foldl_pb_stack_mono
      simp only
      rw [getStack_setStack_self]
      refine List.mem_append_right _ ?_
      exact List.mem_map.mpr ⟨e, List.mem_filter.mpr
        ⟨he, by simp only [decide_eq_true_eq]; exact hver⟩, rfl⟩
    · apply foldl_pb_marks_mono
      simp only
      refine Finset.mem_union_right _ ?_
      rw [List.mem_toFinset]
      exact List.mem_map.mpr ⟨e, List.mem_filter.mpr
        ⟨he, by simp only [decide_eq_true_eq]; exact hver⟩, rfl⟩

end FastWS

namespace FastWS

theorem pb_WF (fd : Raster) (b nr nc bi bj di dj : ℤ) (hb : 0 < b)
    (hbh : fd.blockH = b) (hbw : fd.blockW = b)
    (hH : fd.height = nr * b) (hW : fd.width = nc * b)
    (hcsx : 0 < fd.csx) (hcsy : 0 < fd.csy) (hnr : 0 ≤ nr) (hnc : 0 ≤ nc)
    (bkt : List (ℤ × ℤ × ℤ))
    (hcoh : ∀ e ∈ bkt, di * b ≤ e.2.1 ∧ e.2.1 < di * b + b
      ∧ dj * b ≤ e.2.2 ∧ e.2.2 < dj * b + b)
    (st : DelinState) (hWF : WFState fd b st) :
    WFState fd b (processBucket fd ⟨bi * b, bj * b, b, b⟩ st bkt) := by
  by_cases hinr : 0 ≤ bi + di ∧ bi + di < nr ∧ 0 ≤ bj + dj ∧ bj + dj < nc
  · rcases bkt with _ | ⟨⟨d0, ei, ej⟩, rest⟩
    · exact hWF
    · obtain ⟨i1, i2, i3, i4⟩ := hinr
      rw [processBucket_onRaster fd b nr nc bi bj di dj hb hbh hbw hH hW hcsx hcsy
        i1 i2 i3 i4 st d0 ei ej rest hcoh]
      intro p hp c hc
      rcases mem_setStack hp with rfl | hp'
      · simp only at hc
        rcases List.mem_append.mp hc with hcold | hcnew
        · obtain ⟨l, hl, hcl⟩ := getStack_mem hcold
          obtain ⟨hblk, b1, b2, b3, b4, hmk⟩ := hWF _ hl c hcl
          exact ⟨hblk, b1, b2, b3, b4, Finset.mem_union_left _ hmk⟩
        · obtain ⟨e, hef, rfl⟩ := List.mem_map.mp hcnew
          have he := List.mem_of_mem_filter hef
          obtain ⟨k1, k2, k3, k4⟩ := hcoh e he
          have hver : fd.data (bi * b + e.2.1) (bj * b + e.2.2) = e.1 := by
            have := List.of_mem_filter hef
            simpa using this
          refine ⟨⟨bi + di, bj + dj, i1, i3, rfl, ?_, ?_⟩,
            by dsimp only; linarith, by dsimp only; linarith,
            by dsimp only; linarith, by dsimp only; linarith, ?_⟩
          · rw [hH]
            have : bi + di + 1 ≤ nr := by omega
            exact mul_le_mul_of_nonneg_right this (le_of_lt hb)
          · rw [hW]
            have : bj + dj + 1 ≤ nc := by omega
            exact mul_le_mul_of_nonneg_right this (le_of_lt hb)
          · have hg : glob ⟨(bi + di) * b, (bj + dj) * b, b, b⟩
                (e.2.1 - di * b, e.2.2 - dj * b) = (bi * b + e.2.1, bj * b + e.2.2) := by
              simp only [glob, Prod.mk.injEq]
              exact ⟨by ring, by ring⟩
            rw [hg]
            refine Finset.mem_union_right _ ?_
            rw [List.mem_toFinset]
            exact List.mem_map.mpr ⟨e, hef, rfl⟩
      · obtain ⟨hblk, b1, b2, b3, b4, hmk⟩ := hWF p hp' c hc
        exact ⟨hblk, b1, b2, b3, b4, Finset.mem_union_left _ hmk⟩
  · rw [processBucket_offRaster fd b nr nc bi bj di dj hb hbh hbw hH hW hcsx hcsy
      hnr hnc st _ hcoh hinr]
    exact hWF

theorem foldl_pb_WF (fd : Raster) (b nr nc bi bj : ℤ) (hb : 0 < b)
    (hbh : fd.blockH = b) (hbw : fd.blockW = b)
    (hH : fd.height = nr * b) (hW : fd.width = nc * b)
    (hcsx : 0 < fd.csx) (hcsy : 0 < fd.csy) (hnr : 0 ≤ nr) (hnc : 0 ≤ nc)
    (bl : List (List (ℤ × ℤ × ℤ))) :
    (∀ bucket ∈ bl, ∃ di dj : ℤ, ∀ e ∈ bucket,
      di * b ≤ e.2.1 ∧ e.2.1 < di * b + b ∧ dj * b ≤ e.2.2 ∧ e.2.2 < dj * b + b) →
    ∀ st : DelinState, WFState fd b st →
      WFState fd b (bl.foldl (processBucket fd ⟨bi * b, bj * b, b, b⟩) st) := by
  induction bl with
  | nil => intro _ st hWF; exact hWF
  | cons bkt rest ih =>
    intro hco st hWF
    obtain ⟨di, dj, hcoh⟩ := hco bkt (List.mem_cons_self _ _)
    exact ih (fun bucket hbk => hco bucket (List.mem_cons_of_mem _ hbk)) _
      (pb_WF fd b nr nc bi bj di dj hb hbh hbw hH hW hcsx hcsy hnr hnc bkt hcoh st hWF)

end FastWS

namespace FastWS

theorem pb_sound (fd : Raster) (b nr nc bi bj di dj : ℤ) (hb : 0 < b)
    (hbh : fd.blockH = b) (hbw : fd.blockW = b)
    (hH : fd.height = nr * b) (hW : fd.width = nc * b)
    (hcsx : 0 < fd.csx) (hcsy : 0 < fd.csy) (hnr : 0 ≤ nr) (hnc : 0 ≤ nc)
    (bkt : List (ℤ × ℤ × ℤ))
    (hcoh : ∀ e ∈ bkt, di * b ≤ e.2.1 ∧ e.2.1 < di * b + b
      ∧ dj * b ≤ e.2.2 ∧ e.2.2 < dj * b + b)
    (st : DelinState) :
    (∀ g ∈ (processBucket fd ⟨bi * b, bj * b, b, b⟩ st bkt).marks,
       g ∈ st.marks ∨ ∃ e ∈ bkt,
         (0 ≤ bi + di ∧ bi + di < nr ∧ 0 ≤ bj + dj ∧ bj + dj < nc)
         ∧ fd.data (bi * b + e.2.1) (bj * b + e.2.2) = e.1
         ∧ g = (bi * b + e.2.1, bj * b + e.2.2))
    ∧ (∀ wq c, c ∈ getStack (processBucket fd ⟨bi * b, bj * b, b, b⟩ st bkt).stack wq →
       c ∈ getStack st.stack wq ∨ ∃ e ∈ bkt,
         (0 ≤ bi + di ∧ bi + di < nr ∧ 0 ≤ bj + dj ∧ bj + dj < nc)
         ∧ fd.data (bi * b + e.2.1) (bj * b + e.2.2) = e.1
         ∧ wq = ⟨(bi + di) * b, (bj + dj) * b, b, b⟩
         ∧ c = (e.2.1 - di * b, e.2.2 - dj * b)) := by
  by_cases hinr : 0 ≤ bi + di ∧ bi + di < nr ∧ 0 ≤ bj + dj ∧ bj + dj < nc
  · rcases bkt with _ | ⟨⟨d0, ei, ej⟩, rest⟩
    · exact ⟨fun g hg => Or.inl hg, fun wq c hc => Or.inl hc⟩
    · obtain ⟨i1, i2, i3, i4⟩ := hinr
      rw [processBucket_onRaster fd b nr nc bi bj di dj hb hbh hbw hH hW hcsx hcsy
        i1 i2 i3 i4 st d0 ei ej rest hcoh]
      constructor
      · intro g hg
        simp only at hg
        rcases Finset.mem_union.mp hg with hg | hg
        · exact Or.inl hg
        · rw [List.mem_toFinset] at hg
          obtain ⟨e, hef, rfl⟩ := List.mem_map.mp hg
          have hver : fd.data (bi * b + e.2.1) (bj * b + e.2.2) = e.1 := by
            have := List.of_mem_filter hef
            simpa using this
          exact Or.inr ⟨e, List.mem_of_mem_filter hef, ⟨i1, i2, i3, i4⟩, hver, rfl⟩
      · intro wq c hc
        simp only at hc
        by_cases hq : wq = ⟨(bi + di) * b, (bj + dj) * b, b, b⟩
        · subst hq
          rw [getStack_setStack_self] at hc
          rcases List.mem_append.mp hc with hc | hc
          · exact Or.inl hc
          · obtain ⟨e, hef, rfl⟩ := List.mem_map.mp hc
            have hver : fd.data (bi * b + e.2.1) (bj * b + e.2.2) = e.1 := by
              have := List.of_mem_filter hef
              simpa using this
            exact Or.inr ⟨e, List.mem_of_mem_filter hef, ⟨i1, i2, i3, i4⟩, hver, rfl, rfl⟩
        · rw [getStack_setStack_other _ _ _ hq] at hc
          exact Or.inl hc
  · rw [processBucket_offRaster fd b nr nc bi bj di dj hb hbh hbw hH hW hcsx hcsy
      hnr hnc st _ hcoh hinr]
    exact ⟨fun g hg => Or.inl hg, fun wq c hc => Or.inl hc⟩

theorem foldl_pb_sound (fd : Raster) (b nr nc bi bj : ℤ) (hb : 0 < b)
    (hbh : fd.blockH = b) (hbw : fd.blockW = b)
    (hH : fd.height = nr * b) (hW : fd.width = nc * b)
    (hcsx : 0 < fd.csx) (hcsy : 0 < fd.csy) (hnr : 0 ≤ nr) (hnc : 0 ≤ nc)
    (bl : List (List (ℤ × ℤ × ℤ))) :
    (∀ bucket ∈ bl, ∃ di dj : ℤ, ∀ e ∈ bucket,
      di * b ≤ e.2.1 ∧ e.2.1 < di * b + b ∧ dj * b ≤ e.2.2 ∧ e.2.2 < dj * b + b) →
    ∀ st : DelinState,
    (∀ g ∈ (bl.foldl (processBucket fd ⟨bi * b, bj * b, b, b⟩) st).marks,
       g ∈ st.marks ∨ ∃ bucket ∈ bl, ∃ di dj : ℤ,
         (∀ e ∈ bucket, di * b ≤ e.2.1 ∧ e.2.1 < di * b + b
           ∧ dj * b ≤ e.2.2 ∧ e.2.2 < dj * b + b)
         ∧ ∃ e ∈ bucket,
             (0 ≤ bi + di ∧ bi + di < nr ∧ 0 ≤ bj + dj ∧ bj + dj < nc)
             ∧ fd.data (bi * b + e.2.1) (bj * b + e.2.2) = e.1
             ∧ g = (bi * b + e.2.1, bj * b + e.2.2))
    ∧ (∀ wq c,
        c ∈ getStack ((bl.foldl (processBucket fd ⟨bi * b, bj * b, b, b⟩) st).stack) wq →
       c ∈ getStack st.stack wq ∨ ∃ bucket ∈ bl, ∃ di dj : ℤ,
         (∀ e ∈ bucket, di * b ≤ e.2.1 ∧ e.2.1 < di * b + b
           ∧ dj * b ≤ e.2.2 ∧ e.2.2 < dj * b + b)
         ∧ ∃ e ∈ bucket,
             (0 ≤ bi + di ∧ bi + di < nr ∧ 0 ≤ bj + dj ∧ bj + dj < nc)
             ∧ fd.data (bi * b + e.2.1) (bj * b + e.2.2) = e.1
             ∧ wq = ⟨(bi + di) * b, (bj + dj) * b, b, b⟩
             ∧ c = (e.2.1 - di * b, e.2.2 - dj * b)) := by
  induction bl with
  | nil =>
    intro _ st
    exact ⟨fun g hg => Or.inl hg, fun wq c hc => Or.inl hc⟩
  | cons bkt rest ih =>
    intro hco st
    obtain ⟨di, dj, hcoh⟩ := hco bkt (List.mem_cons_self _ _)
    obtain ⟨ihm, ihs⟩ := ih (fun bucket hbk => hco bucket (List.mem_cons_of_mem _ hbk))
      (processBucket fd ⟨bi * b, bj * b, b, b⟩ st bkt)
    obtain ⟨pbm, pbs⟩ := pb_sound fd b nr nc bi bj di dj hb hbh hbw hH hW hcsx hcsy
      hnr hnc bkt hcoh st
    constructor
    · intro g hg
      rcases ihm g hg with hg' | ⟨bucket, hbk, res⟩
      · rcases pbm g hg' with hg'' | ⟨e, he, res⟩
        · exact Or.inl hg''
        · exact Or.inr ⟨bkt, List.mem_cons_self _ _, di, dj, hcoh, e, he, res⟩
      · exact Or.inr ⟨bucket, List.mem_cons_of_mem _ hbk, res⟩
    · intro wq c hc
      rcases ihs wq c hc with hc' | ⟨bucket, hbk, res⟩
      · rcases pbs wq c hc' with hc'' | ⟨e, he, res⟩
        · exact Or.inl hc''
        · exact Or.inr ⟨bkt, List.mem_cons_self _ _, di, dj, hcoh, e, he, res⟩
      · exact Or.inr ⟨bucket, List.mem_cons_of_mem _ hbk, res⟩

end FastWS

namespace FastWS

set_option maxHeartbeats 1000000 in
theorem next_delin_MSet (fd : Raster) (b nr nc : ℤ) (hb : 0 < b)
    (hbh : fd.blockH = b) (hbw : fd.blockW = b)
    (hH : fd.height = nr * b) (hW : fd.width = nc * b)
    (hcsx : 0 < fd.csx) (hcsy : 0 < fd.csy)
    (kfuel : ℕ) (st st' : DelinState) (wp : Window)
    (hWF : WFState fd b st) (hblk : IsBlock fd b wp)
    (hnd : next_delin fd kfuel st wp = some st') :
    WFState fd b st' ∧ MSet fd b st' = MSet fd b st := by
  obtain ⟨bi, bj, hbi0, hbj0, rfl, hbiH, hbjW⟩ := hblk
  have hbi1 : bi + 1 ≤ nr := le_of_mul_le_mul_right (by rwa [hH] at hbiH) hb
  have hbj1 : bj + 1 ≤ nc := le_of_mul_le_mul_right (by rwa [hW] at hbjW) hb
  have hnr : 0 ≤ nr := by omega
  have hnc : 0 ≤ nc := by omega
  rw [next_delin] at hnd
  dsimp only at hnd
  split at hnd
  · exact Option.noConfusion hnd
  rename_i out heq
  injection hnd with hnd
  have hS : ∀ c ∈ getStack st.stack ⟨bi * b, bj * b, b, b⟩,
      (0 ≤ c.1 ∧ c.1 < b ∧ 0 ≤ c.2 ∧ c.2 < b)
        ∧ glob ⟨bi * b, bj * b, b, b⟩ c ∈ st.marks := by
    intro c hc
    obtain ⟨l, hl, hcl⟩ := getStack_mem hc
    obtain ⟨hblk', b1, b2, b3, b4, hmk⟩ := hWF _ hl c hcl
    exact ⟨⟨b1, b2, b3, b4⟩, hmk⟩
  have hbasin := kernel_basin_mem (fd.fdWin ⟨bi * b, bj * b, b, b⟩) b
    (getStack st.stack ⟨bi * b, bj * b, b, b⟩) kfuel out heq
  have hedges := kernel_edges_mem (fd.fdWin ⟨bi * b, bj * b, b, b⟩) b
    (getStack st.stack ⟨bi * b, bj * b, b, b⟩) kfuel out heq
  have hreachb : ∀ c : ℤ × ℤ,
      (∃ a ∈ getStack st.stack ⟨bi * b, bj * b, b, b⟩,
        Relation.ReflTransGen (kcontrib (fd.fdWin ⟨bi * b, bj * b, b, b⟩) b) a c) →
      0 ≤ c.1 ∧ c.1 < b ∧ 0 ≤ c.2 ∧ c.2 < b := by
    rintro c ⟨a, ha, hra⟩
    exact reach_in_window hra (hS a ha).1
  have hshape : ∀ pr ∈ out.edge_directions.zip out.edges,
      (-1 ≤ pr.2.1 ∧ pr.2.1 ≤ b ∧ -1 ≤ pr.2.2 ∧ pr.2.2 ≤ b)
        ∧ (pr.2.1 < 0 ∨ pr.2.2 < 0 ∨ pr.2.1 = b ∨ pr.2.2 = b) := by
    intro pr hpr
    obtain ⟨c, o, hrc, ho, hkedge, rfl⟩ := (hedges pr).mp hpr
    obtain ⟨c1, c2, c3, c4⟩ := hreachb c hrc
    obtain ⟨o1, o2, o3, o4⟩ := nbrs_bound o ho
    simp only [kedgeTest, decide_eq_true_eq] at hkedge
    dsimp only
    constructor
    · omega
    · omega
  have hco : ∀ bucket ∈ bucketList b b (out.edge_directions.zip out.edges),
      ∃ di dj : ℤ, ∀ e ∈ bucket,
        di * b ≤ e.2.1 ∧ e.2.1 < di * b + b ∧ dj * b ≤ e.2.2 ∧ e.2.2 < dj * b + b :=
    fun bucket hbk => bucket_coherent hb (fun pr hpr => (hshape pr hpr).1) hbk
  have hWF1 : WFState fd b ⟨setStack st.stack ⟨bi * b, bj * b, b, b⟩ [],
      st.marks ∪ (out.basin.map (glob ⟨bi * b, bj * b, b, b⟩)).toFinset⟩ := by
    intro p hp c hpc
    rcases mem_setStack hp with rfl | hp'
    · cases hpc
    · obtain ⟨hblk', b1, b2, b3, b4, hmk⟩ := hWF p hp' c hpc
      exact ⟨hblk', b1, b2, b3, b4, Finset.mem_union_left _ hmk⟩
  have hWF' : WFState fd b st' := by
    rw [← hnd]
    exact foldl_pb_WF fd b nr nc bi bj hb hbh hbw hH hW hcsx hcsy hnr hnc _ hco _ hWF1
  refine ⟨hWF', ?_⟩
  have hsound := foldl_pb_sound fd b nr nc bi bj hb hbh hbw hH hW hcsx hcsy hnr hnc
    (bucketList b b (out.edge_directions.zip out.edges)) hco
    ⟨setStack st.stack ⟨bi * b, bj * b, b, b⟩ [],
      st.marks ∪ (out.basin.map (glob ⟨bi * b, bj * b, b, b⟩)).toFinset⟩
  have hrowPend : ∀ (bucket : List (ℤ × ℤ × ℤ)),
      bucket ∈ bucketList b b (out.edge_directions.zip out.edges) →
      ∀ (di dj : ℤ),
      (∀ e ∈ bucket, di * b ≤ e.2.1 ∧ e.2.1 < di * b + b
        ∧ dj * b ≤ e.2.2 ∧ e.2.2 < dj * b + b) →
      ∀ e ∈ bucket,
      (0 ≤ bi + di ∧ bi + di < nr ∧ 0 ≤ bj + dj ∧ bj + dj < nc) →
      fd.data (bi * b + e.2.1) (bj * b + e.2.2) = e.1 →
      Pend fd b st.stack ⟨(bi + di) * b, (bj + dj) * b, b, b⟩
        (e.2.1 - di * b, e.2.2 - dj * b) := by
    intro bucket hbk di dj hcoh e he hinr hver
    have herow : e ∈ out.edge_directions.zip out.edges := bucket_sub hbk e he
    obtain ⟨d, o, ⟨a, ha, hra⟩, ho, hkedge, rfl⟩ := (hedges e).mp herow
    obtain ⟨k1, k2, k3, k4⟩ := hcoh _ he
    simp only at k1 k2 k3 k4
    simp only [kedgeTest, decide_eq_true_eq] at hkedge
    have hstep := @Pend.step fd b
      st.stack ⟨bi * b, bj * b, b, b⟩ a d (d.1 + o.1, d.2 + o.2) o
      ⟨(bi + di) * b, (bj + dj) * b, b, b⟩
      (Pend.base _ _ ha) hra ho rfl (by dsimp only at hkedge ⊢; omega)
      ⟨⟨bi + di, bj + dj, hinr.1, hinr.2.2.1, rfl, by
          rw [hH]
          exact mul_le_mul_of_nonneg_right (by omega) (le_of_lt hb), by
          rw [hW]
          exact mul_le_mul_of_nonneg_right (by omega) (le_of_lt hb)⟩,
        by dsimp only [glob]; linarith, by dsimp only [glob]; linarith,
        by dsimp only [glob]; linarith, by dsimp only [glob]; linarith⟩
      (by dsimp only [glob]; simpa using hver)
    have hcl : ((glob ⟨bi * b, bj * b, b, b⟩ (d.1 + o.1, d.2 + o.2)).1
          - (⟨(bi + di) * b, (bj + dj) * b, b, b⟩ : Window).row_off,
        (glob ⟨bi * b, bj * b, b, b⟩ (d.1 + o.1, d.2 + o.2)).2
          - (⟨(bi + di) * b, (bj + dj) * b, b, b⟩ : Window).col_off)
        = ((d.1 + o.1) - di * b, (d.2 + o.2) - dj * b) := by
      dsimp only [glob]
      simp only [Prod.mk.injEq]
      exact ⟨by ring, by ring⟩
    rw [hcl] at hstep
    exact hstep
  have hD : ∀ w c, Pend fd b st'.stack w c → Pend fd b st.stack w c := by
    intro w c hp
    induction hp with
    | base w c hc =>
      rw [← hnd] at hc
      rcases hsound.2 w c hc with hc1 | ⟨bucket, hbk, di, dj, hcoh, e, he, hinr, hver, rfl, rfl⟩
      · by_cases hwq : w = ⟨bi * b, bj * b, b, b⟩
        · subst hwq
          rw [getStack_setStack_self] at hc1
          cases hc1
        · rw [getStack_setStack_other _ _ _ hwq] at hc1
          exact Pend.base _ _ hc1
      · exact hrowPend bucket hbk di dj hcoh e he hinr hver
    | step w0 c0 d t o w' hp0 hreach ho ht hedge hw' hmatch ih =>
      exact Pend.step _ _ _ _ _ _ ih hreach ho ht hedge hw' hmatch
  have hB : ∀ w c, Pend fd b st.stack w c →
      Pend fd b st'.stack w c
        ∨ (w = ⟨bi * b, bj * b, b, b⟩
            ∧ (c ∈ getStack st.stack ⟨bi * b, bj * b, b, b⟩ ∨ c ∈ out.basin)) := by
    intro w c hp
    induction hp with
    | base w c hc =>
      by_cases hwq : w = ⟨bi * b, bj * b, b, b⟩
      · subst hwq
        exact Or.inr ⟨rfl, Or.inl hc⟩
      · left
        apply Pend.base
        rw [← hnd]
        apply foldl_pb_stack_mono
        show c ∈ getStack (setStack st.stack ⟨bi * b, bj * b, b, b⟩ []) w
        rw [getStack_setStack_other _ _ _ hwq]
        exact hc
    | step w0 c0 d t o w' hp0 hreach ho ht hedge hw' hmatch ih =>
      rcases ih with ih | ⟨hw0, hc0⟩
      · exact Or.inl (Pend.step _ _ _ _ _ _ ih hreach ho ht hedge hw' hmatch)
      · subst hw0
        subst ht
        have hd : ∃ a ∈ getStack st.stack ⟨bi * b, bj * b, b, b⟩,
            Relation.ReflTransGen (kcontrib (fd.fdWin ⟨bi * b, bj * b, b, b⟩) b) a d := by
          rcases hc0 with hc0 | hc0
          · exact ⟨c0, hc0, hreach⟩
          · obtain ⟨a, ha, htr⟩ := (hbasin c0).mp hc0
            exact ⟨a, ha, htr.to_reflTransGen.trans hreach⟩
        obtain ⟨d1, d2, d3, d4⟩ := hreachb d hd
        obtain ⟨o1, o2, o3, o4⟩ := nbrs_bound o ho
        have hkedge : kedgeTest b (d.1 + o.1, d.2 + o.2) = true := by
          simp only [kedgeTest, decide_eq_true_eq]
          dsimp only at hedge
          omega
        have hrow : (dirAt o.1 o.2, (d.1 + o.1, d.2 + o.2))
            ∈ out.edge_directions.zip out.edges :=
          (hedges _).mpr ⟨d, o, hd, ho, hkedge, rfl⟩
        obtain ⟨bucket, hbk, hprbk⟩ := bucket_cover hb hrow
          (by dsimp only; omega) (by dsimp only; omega)
          (by dsimp only; omega) (by dsimp only; omega)
          (by dsimp only at hedge ⊢; omega)
        obtain ⟨di, dj, hcoh⟩ := hco bucket hbk
        obtain ⟨⟨bi', bj', hbi'0, hbj'0, hw'eq, hbi'H, hbj'W⟩, l1, l2, l3, l4⟩ := hw'
        subst hw'eq
        obtain ⟨k1, k2, k3, k4⟩ := hcoh _ hprbk
        simp only at k1 k2 k3 k4
        dsimp only [glob] at l1 l2 l3 l4
        have e1 : bi' = bi + di := by
          have s1 : (bi + di + 1) * b = bi * b + di * b + b := by ring
          have s2 : (bi' + 1) * b = bi' * b + b := by ring
          have s3 : (bi + di) * b = bi * b + di * b := by ring
          have p1 : bi' * b < (bi + di + 1) * b := by linarith
          have p2 : (bi + di) * b < (bi' + 1) * b := by linarith
          have q1 := lt_of_mul_lt_mul_right p1 (le_of_lt hb)
          have q2 := lt_of_mul_lt_mul_right p2 (le_of_lt hb)
          omega
        have e2 : bj' = bj + dj := by
          have s1 : (bj + dj + 1) * b = bj * b + dj * b + b := by ring
          have s2 : (bj' + 1) * b = bj' * b + b := by ring
          have s3 : (bj + dj) * b = bj * b + dj * b := by ring
          have p1 : bj' * b < (bj + dj + 1) * b := by linarith
          have p2 : (bj + dj) * b < (bj' + 1) * b := by linarith
          have q1 := lt_of_mul_lt_mul_right p1 (le_of_lt hb)
          have q2 := lt_of_mul_lt_mul_right p2 (le_of_lt hb)
          omega
        subst e1
        subst e2
        have hinr : 0 ≤ bi + di ∧ bi + di < nr ∧ 0 ≤ bj + dj ∧ bj + dj < nc := by
          have r1 : bi + di + 1 ≤ nr :=
            le_of_mul_le_mul_right (by rwa [hH] at hbi'H) hb
          have r2 : bj + dj + 1 ≤ nc :=
            le_of_mul_le_mul_right (by rwa [hW] at hbj'W) hb
          exact ⟨hbi'0, by omega, hbj'0, by omega⟩
        have hver : fd.data (bi * b + (d.1 + o.1)) (bj * b + (d.2 + o.2))
            = dirAt o.1 o.2 := by
          dsimp only [glob] at hmatch
          exact hmatch
        have hadd := foldl_pb_add fd b nr nc bi bj di dj hb hbh hbw hH hW hcsx hcsy
          hinr.1 hinr.2.1 hinr.2.2.1 hinr.2.2.2
          (bucketList b b (out.edge_directions.zip out.edges)) bucket hbk hcoh
          (dirAt o.1 o.2, (d.1 + o.1, d.2 + o.2)) hprbk hver
          ⟨setStack st.stack ⟨bi * b, bj * b, b, b⟩ [],
            st.marks ∪ (out.basin.map (glob ⟨bi * b, bj * b, b, b⟩)).toFinset⟩
        rw [hnd] at hadd
        left
        have hcl : ((glob ⟨bi * b, bj * b, b, b⟩ (d.1 + o.1, d.2 + o.2)).1
              - (⟨(bi + di) * b, (bj + dj) * b, b, b⟩ : Window).row_off,
            (glob ⟨bi * b, bj * b, b, b⟩ (d.1 + o.1, d.2 + o.2)).2
              - (⟨(bi + di) * b, (bj + dj) * b, b, b⟩ : Window).col_off)
            = ((d.1 + o.1) - di * b, (d.2 + o.2) - dj * b) := by
          dsimp only [glob]
          simp only [Prod.mk.injEq]
          exact ⟨by ring, by ring⟩
        rw [hcl]
        exact Pend.base _ _ hadd.1
  apply Set.Subset.antisymm
  · intro g hg
    simp only [MSet, Set.mem_union, Finset.mem_coe, Set.mem_setOf_eq] at hg ⊢
    rcases hg with hg | ⟨w, c, t, hp, hr, rfl⟩
    · rw [← hnd] at hg
      rcases hsound.1 g hg with hg1 | ⟨bucket, hbk, di, dj, hcoh, e, he, hinr, hver, rfl⟩
      · rcases Finset.mem_union.mp hg1 with h | h
        · exact Or.inl h
        · rw [List.mem_toFinset] at h
          obtain ⟨t, ht, rfl⟩ := List.mem_map.mp h
          obtain ⟨a, ha, htr⟩ := (hbasin t).mp ht
          exact Or.inr ⟨⟨bi * b, bj * b, b, b⟩, a, t, Pend.base _ _ ha,
            htr.to_reflTransGen, rfl⟩
      · have hpend := hrowPend bucket hbk di dj hcoh e he hinr hver
        refine Or.inr ⟨⟨(bi + di) * b, (bj + dj) * b, b, b⟩,
          (e.2.1 - di * b, e.2.2 - dj * b), (e.2.1 - di * b, e.2.2 - dj * b),
          hpend, Relation.ReflTransGen.refl, ?_⟩
        dsimp only [glob]
        simp only [Prod.mk.injEq]
        exact ⟨by ring, by ring⟩
    · exact Or.inr ⟨w, c, t, hD w c hp, hr, rfl⟩
  · intro g hg
    simp only [MSet, Set.mem_union, Finset.mem_coe, Set.mem_setOf_eq] at hg ⊢
    rcases hg with hg | ⟨w, c, t, hp, hr, rfl⟩
    · left
      rw [← hnd]
      exact foldl_pb_marks_mono _ _ _ _ _ (Finset.mem_union_left _ hg)
    · rcases hB w c hp with hp' | ⟨hww, hc⟩
      · exact Or.inr ⟨w, c, t, hp', hr, rfl⟩
      · subst hww
        left
        rw [← hnd]
        apply foldl_pb_marks_mono
        rcases Relation.reflTransGen_iff_eq_or_transGen.mp hr with rfl | htg
        · rcases hc with hcS | hcB
          · exact Finset.mem_union_left _ (hS _ hcS).2
          · refine Finset.mem_union_right _ ?_
            rw [List.mem_toFinset]
            exact List.mem_map.mpr ⟨_, hcB, rfl⟩
        · have htB : t ∈ out.basin := by
            apply (hbasin t).mpr
            rcases hc with hcS | hcB
            · exact ⟨c, hcS, htg⟩
            · obtain ⟨a, ha, htr⟩ := (hbasin c).mp hcB
              exact ⟨a, ha, htr.trans htg⟩
          refine Finset.mem_union_right _ ?_
          rw [List.mem_toFinset]
          exact List.mem_map.mpr ⟨_, htB, rfl⟩

end FastWS

namespace FastWS

theorem Pend_empty {fd : Raster} {b : ℤ} {stk : List (Window × List (ℤ × ℤ))}
    (hempty : ∀ w, getStack stk w = []) : ∀ w c, ¬ Pend fd b stk w c := by
  intro w c hp
  induction hp with
  | base w c hc => rw [hempty] at hc; cases hc
  | step w c d t o w' hp hreach ho ht hedge hw' hmatch ih => exact ih

theorem MSet_of_empty (fd : Raster) (b : ℤ) (st : DelinState)
    (hempty : ∀ w, getStack st.stack w = []) : MSet fd b st = ↑st.marks := by
  rw [MSet]
  ext g
  simp only [Set.mem_union, Finset.mem_coe, Set.mem_setOf_eq]
  constructor
  · rintro (h | ⟨w, c, t, hp, -, -⟩)
    · exact h
    · exact absurd hp (Pend_empty hempty w c)
  · exact Or.inl

theorem delinMainLoop_MSet (fd : Raster) (b nr nc : ℤ) (hb : 0 < b)
    (hbh : fd.blockH = b) (hbw : fd.blockW = b)
    (hH : fd.height = nr * b) (hW : fd.width = nc * b)
    (hcsx : 0 < fd.csx) (hcsy : 0 < fd.csy)
    (kfuel : ℕ) (pick : DelinState → Option Window) (hpick : ValidPick pick) :
    ∀ (n : ℕ) (st : DelinState) (w : Window) (M : Finset (ℤ × ℤ)),
      WFState fd b st → IsBlock fd b w →
      delinMainLoop fd kfuel pick n st w = some M → ↑M = MSet fd b st := by
  intro n
  induction n with
  | zero =>
    intro st w M _ _ h
    exact absurd h (by simp [delinMainLoop])
  | succ n ih =>
    intro st w M hWF hblk h
    rw [delinMainLoop] at h
    split at h
    · exact Option.noConfusion h
    rename_i st' hnd
    obtain ⟨hWF', hMeq⟩ := next_delin_MSet fd b nr nc hb hbh hbw hH hW hcsx hcsy
      kfuel st st' w hWF hblk hnd
    split at h
    · rename_i hpnone
      injection h with h
      subst h
      rw [← hMeq, MSet_of_empty fd b st' ((hpick st').2 hpnone)]
    · rename_i w' hpw
      have hblk' : IsBlock fd b w' := by
        have hne := (hpick st').1 w' hpw
        obtain ⟨c, hc⟩ := List.exists_mem_of_ne_nil _ hne
        obtain ⟨l, hl, hcl⟩ := getStack_mem hc
        exact (hWF' _ hl c hcl).1
      rw [← hMeq]
      exact ih st' w' M hWF' hblk' h

theorem validPick_goodPick : ValidPick goodPick := by
  intro st
  constructor
  · intro w hw
    rw [goodPick] at hw
    obtain ⟨p, hfind, hp1⟩ := Option.map_eq_some'.mp hw
    have hpred := List.find?_some hfind
    intro hnil
    rw [← hp1] at hnil
    rw [hnil] at hpred
    simp at hpred
  · intro hnone w
    rw [goodPick, Option.map_eq_none'] at hnone
    rw [List.find?_eq_none] at hnone
    rw [getStack]
    cases hlk : lookupW st.stack w with
    | none => rfl
    | some l =>
      have hmem := lookupW_mem _ _ _ hlk
      have hpred := hnone _ hmem
      cases l with
      | nil => rfl
      | cons hd tl =>
        exfalso
        apply hpred
        show (!(getStack st.stack w).isEmpty) = true
        rw [getStack, hlk]
        rfl

/-- C6.  The final coverage mosaic of `delineate`'s main loop is
schedule-invariant: on a raster tiled into square `b × b` blocks, for any
two admissible choices of which pending window to process next (and any
two starting blocks and fuel budgets), two terminating runs of the main
loop from the same well-formed state mark exactly the same set of global
cells. -/
theorem delineate_schedule_invariant (fd : Raster) (b nr nc : ℤ)
    (hb : 0 < b) (hbh : fd.blockH = b) (hbw : fd.blockW = b)
    (hH : fd.height = nr * b) (hW : fd.width = nc * b)
    (hcsx : 0 < fd.csx) (hcsy : 0 < fd.csy)
    (kfuel : ℕ) (pick₁ pick₂ : DelinState → Option Window)
    (hp₁ : ValidPick pick₁) (hp₂ : ValidPick pick₂)
    (st : DelinState) (w₁ w₂ : Window)
    (hWF : WFState fd b st)
    (hw₁ : IsBlock fd b w₁) (hw₂ : IsBlock fd b w₂)
    (n₁ n₂ : ℕ) (M₁ M₂ : Finset (ℤ × ℤ))
    (h₁ : delinMainLoop fd kfuel pick₁ n₁ st w₁ = some M₁)
    (h₂ : delinMainLoop fd kfuel pick₂ n₂ st w₂ = some M₂) :
    M₁ = M₂ := by
  have e1 := delinMainLoop_MSet fd b nr nc hb hbh hbw hH hW hcsx hcsy kfuel pick₁ hp₁
    n₁ st w₁ M₁ hWF hw₁ h₁
  have e2 := delinMainLoop_MSet fd b nr nc hb hbh hbw hH hW hcsx hcsy kfuel pick₂ hp₂
    n₂ st w₂ M₂ hWF hw₂ h₂
  exact Finset.coe_injective (e1.trans e2.symm)

/-- C6 witness: on a one-block unit raster with an empty initial work
dict, both runs of the main loop (with the first-nonempty-stack choice)
terminate in one round with the empty mosaic, and the theorem applies. -/
theorem delineate_schedule_invariant_witness :
    (0 : ℤ) < 1
      ∧ delinMainLoop fdW6 1 goodPick 1 ⟨[], ∅⟩ ⟨0, 0, 1, 1⟩ = some ∅
      ∧ (∅ : Finset (ℤ × ℤ)) = ∅ :=
  ⟨by decide, by decide,
    delineate_schedule_invariant fdW6 1 1 1 (by decide) (by decide) (by decide)
      (by decide) (by decide) (by norm_num [fdW6]) (by norm_num [fdW6]) 1
      goodPick goodPick validPick_goodPick validPick_goodPick ⟨[], ∅⟩
      ⟨0, 0, 1, 1⟩ ⟨0, 0, 1, 1⟩
      (fun p hp => absurd hp (List.not_mem_nil _))
      ⟨0, 0, by decide, by decide, by decide, by decide, by decide⟩
      ⟨0, 0, by decide, by decide, by decide, by decide, by decide⟩
      1 1 ∅ ∅ (by decide) (by decide)⟩

end FastWS
